import Mathlib

/-!
Verification of the batch OCR-extraction pipeline (Gemini-OCR-Example).

This file gives a shallow embedding of the core of the repository:

* `LLMClient.validate_json_output` (src/clients/llm_client.py, lines 281-336):
  the response-repair logic, modelled character-for-character on `List Char`,
  together with an executable model of Python's `json.loads` restricted to the
  record grammar the pipeline works with (arrays of flat objects whose values
  are strings, integers or null).
* `InputHandler.get_files_from_directory` (src/handlers/input_handler.py).
* The cost accounting of `BaseExtractor._calculate_and_log_cost` and of the
  parallel worker `BaseExtractor._process_file_wrapper` (over `ℚ`, since the
  Python floats only ever hold sums of token-count/1e6 times rate products).
* The sequential and parallel directory-processing state machines of
  `BaseExtractor.process_file` / `process_directory` / `_process_file_wrapper`
  (src/extractors/base_extractor.py), with the Recognizer response per file
  supplied as data and all per-file side effects made explicit in a state
  record.

Python strings are modelled as `List Char`; Python `set` as `Finset`;
Python numbers in the cost path as `ℚ`.
-/

namespace GeminiOcr

/-! ### Characters that the repair logic cares about -/

/-- Double-quote character (codepoint 34). -/
def qc : Char := Char.ofNat 34

/-- Backslash character (codepoint 92). -/
def bs : Char := Char.ofNat 92

/-- Backtick character (codepoint 96), used for markdown code fences. -/
def bt : Char := Char.ofNat 96

/-- Whitespace in the sense of Python's `str.strip` (the ASCII part). -/
def isPySpace (c : Char) : Bool :=
  c = ' ' || c = '\t' || c = '\n' || c = '\r' || c = Char.ofNat 11 || c = Char.ofNat 12

/-- Model of Python `str.strip()`: drop whitespace from both ends. -/
def pyStrip (cs : List Char) : List Char :=
  ((cs.dropWhile isPySpace).reverse.dropWhile isPySpace).reverse

/-- Model of Python `str.startswith(pre)` on character lists. -/
def startsWithL : List Char → List Char → Bool
  | [], _ => true
  | _ :: _, [] => false
  | p :: ps, c :: cs => p = c && startsWithL ps cs

/-- Model of Python `str.endswith(suf)` on character lists. -/
def endsWithL (suf cs : List Char) : Bool :=
  startsWithL suf.reverse cs.reverse

/-- Model of Python `str.find(ch)`: index of the first occurrence, if any. -/
def pyFind (ch : Char) : List Char → Option Nat
  | [] => none
  | c :: cs => if c = ch then some 0 else (pyFind ch cs).map (· + 1)

/-- Model of Python `str.rfind(ch)`: index of the last occurrence, if any. -/
def pyRfind (ch : Char) : List Char → Option Nat
  | [] => none
  | c :: cs =>
    match pyRfind ch cs with
    | some i => some (i + 1)
    | none => if c = ch then some 0 else none

/-! ### The JSON data the pipeline transports

The core only requires the Recognizer output to be an ordered sequence of flat
records mapping field names to scalars (string / integer / null), so the JSON
model is restricted to exactly that grammar.  Strings are kept as `List Char`.
-/

/-- Scalar field value of an extracted record. -/
inductive Scalar : Type
  | str (s : List Char)
  | int (n : Int)
  | null
deriving DecidableEq

/-- An extracted record: an ordered mapping of field name to scalar. -/
abbrev RecordJ : Type := List (List Char × Scalar)

/-- Possible results of `json.loads` on the repaired text: a JSON array of
records, a lone JSON object, or a bare scalar. -/
inductive PyVal : Type
  | arr (rs : List RecordJ)
  | obj (r : RecordJ)
  | scal (v : Scalar)
deriving DecidableEq

/-! ### Serialization (the canonical compact form of an array of records) -/

/-- Lower-case hexadecimal digit character for `n < 16`. -/
def hexDigit (n : Nat) : Char := if n < 10 then Char.ofNat (48 + n) else Char.ofNat (87 + n)

/-- Escape a single character as json.dumps (py_encode_basestring) does inside
a JSON string literal: quote and backslash get a backslash, the five named
control characters get their short escapes, every other control character
below 0x20 becomes a backslash-u escape, and everything else passes through
unescaped. -/
def escChar (c : Char) : List Char :=
  if c = qc || c = bs then [bs, c]
  else if c = Char.ofNat 8 then [bs, 'b']
  else if c = Char.ofNat 9 then [bs, 't']
  else if c = Char.ofNat 10 then [bs, 'n']
  else if c = Char.ofNat 12 then [bs, 'f']
  else if c = Char.ofNat 13 then [bs, 'r']
  else if c.toNat < 32 then
    [bs, 'u', '0', '0', hexDigit (c.toNat / 16), hexDigit (c.toNat % 16)]
  else [c]

/-- Escape a whole string body. -/
def escList : List Char → List Char
  | [] => []
  | c :: cs => escChar c ++ escList cs

/-- Decimal digit character for `d < 10`. -/
def digitChar (d : Nat) : Char := Char.ofNat (48 + d)

/-- Fuel-driven most-significant-first decimal writer (kernel-reducible). -/
def dumpNatAux : Nat → Nat → List Char → List Char
  | 0, _, acc => acc
  | fuel + 1, n, acc =>
    if n < 10 then digitChar n :: acc
    else dumpNatAux fuel (n / 10) (digitChar (n % 10) :: acc)

/-- Decimal representation of a natural number. -/
def dumpNat (n : Nat) : List Char := dumpNatAux (n + 1) n []

/-- Serialize one scalar. -/
def dumpScalar : Scalar → List Char
  | .str s => qc :: escList s ++ [qc]
  | .int n => if n < 0 then '-' :: dumpNat n.natAbs else dumpNat n.toNat
  | .null => ['n', 'u', 'l', 'l']

/-- Serialize the members of a record, without the surrounding braces. -/
def dumpMembers : RecordJ → List Char
  | [] => []
  | [(k, v)] => qc :: escList k ++ [qc, ':'] ++ dumpScalar v
  | (k, v) :: kv :: r =>
    qc :: escList k ++ [qc, ':'] ++ dumpScalar v ++ ',' :: dumpMembers (kv :: r)

/-- Serialize one record as a JSON object. -/
def dumpRecord (r : RecordJ) : List Char := '{' :: dumpMembers r ++ ['}']

/-- Serialize the elements of an array of records, without the brackets. -/
def dumpElems : List RecordJ → List Char
  | [] => []
  | [r] => dumpRecord r
  | r :: r' :: rs => dumpRecord r ++ ',' :: dumpElems (r' :: rs)

/-- Canonical serialization of a JSON array of records. -/
def dumps (rs : List RecordJ) : List Char := '[' :: dumpElems rs ++ [']']

/-! ### A model of `json.loads`, restricted to the record grammar -/

/-- Translation of a short backslash escape code, as in json.decoder's
BACKSLASH table (quote, backslash, slash, b, f, n, r, t). -/
def escCode (e : Char) : Option Char :=
  if e = qc then some qc
  else if e = bs then some bs
  else if e = '/' then some '/'
  else if e = 'b' then some (Char.ofNat 8)
  else if e = 'f' then some (Char.ofNat 12)
  else if e = 'n' then some (Char.ofNat 10)
  else if e = 'r' then some (Char.ofNat 13)
  else if e = 't' then some (Char.ofNat 9)
  else none

/-- Value of one hexadecimal digit character (either case). -/
def hexVal (c : Char) : Option Nat :=
  if 48 ≤ c.toNat && c.toNat ≤ 57 then some (c.toNat - 48)
  else if 97 ≤ c.toNat && c.toNat ≤ 102 then some (c.toNat - 87)
  else if 65 ≤ c.toNat && c.toNat ≤ 70 then some (c.toNat - 55)
  else none

/-- Read four hexadecimal digits, as after a backslash-u escape. -/
def hex4 : List Char → Option (Nat × List Char)
  | a :: b :: c :: d :: rest =>
    match hexVal a, hexVal b, hexVal c, hexVal d with
    | some x, some y, some z, some w => some (((x * 16 + y) * 16 + z) * 16 + w, rest)
    | _, _, _, _ => none
  | _ => none

/-- Fuel-driven scanner for the body of a JSON string literal after the
opening quote, as json.decoder's py_scanstring in strict mode (the json.loads
default): an unescaped control character below 0x20 is an error, a backslash
introduces either a short escape from the BACKSLASH table or a backslash-u
escape of four hexadecimal digits (a high surrogate must be followed by a low
one and the pair is combined; a lone surrogate denotes no Unicode scalar value
and is rejected by this model).  Every step consumes at least one input
character, so fuel exceeding the input length never runs out. -/
def parseStringBodyAux : Nat → List Char → Option (List Char × List Char)
  | 0, _ => none
  | _ + 1, [] => none
  | fuel + 1, c :: cs =>
    if c = qc then some ([], cs)
    else if c = bs then
      match cs with
      | [] => none
      | e :: cs1 =>
        if e = 'u' then
          match hex4 cs1 with
          | none => none
          | some (v, cs2) =>
            if v < 55296 ∨ 57344 ≤ v then
              (parseStringBodyAux fuel cs2).map (fun p => (Char.ofNat v :: p.1, p.2))
            else if v < 56320 then
              match cs2 with
              | b2 :: u2 :: cs3 =>
                if b2 = bs ∧ u2 = 'u' then
                  match hex4 cs3 with
                  | none => none
                  | some (w, cs4) =>
                    if 56320 ≤ w ∧ w < 57344 then
                      (parseStringBodyAux fuel cs4).map (fun p =>
                        (Char.ofNat (65536 + (v - 55296) * 1024 + (w - 56320)) :: p.1, p.2))
                    else none
                else none
              | _ => none
            else none
        else
          match escCode e with
          | none => none
          | some d => (parseStringBodyAux fuel cs1).map (fun p => (d :: p.1, p.2))
    else if c.toNat < 32 then none
    else (parseStringBodyAux fuel cs).map (fun p => (c :: p.1, p.2))

/-- Parse the body of a JSON string literal after the opening quote; returns
the body and the rest. -/
def parseStringBody (cs : List Char) : Option (List Char × List Char) :=
  parseStringBodyAux (cs.length + 1) cs

/-- Consume a maximal run of decimal digits, MSB first, onto an accumulator. -/
def parseDigits : List Char → Nat → Nat × List Char
  | [], acc => (acc, [])
  | c :: cs, acc =>
    if c.isDigit then parseDigits cs (acc * 10 + (c.toNat - 48)) else (acc, c :: cs)

/-- Parse one scalar (string, integer or null). -/
def parseScalar : List Char → Option (Scalar × List Char)
  | [] => none
  | c :: cs =>
    if c = qc then (parseStringBody cs).map (fun p => (.str p.1, p.2))
    else if c = 'n' then
      match cs with
      | 'u' :: 'l' :: 'l' :: rest => some (.null, rest)
      | _ => none
    else if c = '-' then
      match cs with
      | d :: _ =>
        if d.isDigit then
          let p := parseDigits cs 0
          some (.int (-(p.1 : Int)), p.2)
        else none
      | [] => none
    else if c.isDigit then
      let p := parseDigits (c :: cs) 0
      some (.int (p.1 : Int), p.2)
    else none

/-- Parse the members of an object after the opening brace; the fuel bounds the
number of members.  Consumes the closing brace. -/
def parseMembers : Nat → List Char → Option (RecordJ × List Char)
  | 0, _ => none
  | fuel + 1, cs =>
    match cs with
    | c :: cs1 =>
      if c = qc then
        match parseStringBody cs1 with
        | none => none
        | some (k, cs2) =>
          match cs2 with
          | ':' :: cs3 =>
            match parseScalar cs3 with
            | none => none
            | some (v, cs4) =>
              match cs4 with
              | ',' :: cs5 =>
                (parseMembers fuel cs5).map (fun p => ((k, v) :: p.1, p.2))
              | '}' :: cs5 => some ([(k, v)], cs5)
              | _ => none
          | _ => none
      else none
    | [] => none

/-- One dict assignment: a repeated key keeps its first position and takes
the new value, a new key is appended. -/
def setItem (r : RecordJ) (k : List Char) (v : Scalar) : RecordJ :=
  if r.any (fun p => p.1 == k) then
    r.map (fun p => if p.1 == k then (p.1, v) else p)
  else r ++ [(k, v)]

/-- dict(pairs) as json.decoder's JSONObject builds it from the scanned
key/value pairs: repeated keys collapse, keeping the first position and the
last value. -/
def pyDict (ps : RecordJ) : RecordJ :=
  ps.foldl (fun a kv => setItem a kv.1 kv.2) []

/-- Parse one JSON object (a record). -/
def parseRecord : List Char → Option (RecordJ × List Char)
  | '{' :: cs =>
    match cs with
    | c :: cs2 =>
      if c = '}' then some ([], cs2)
      else (parseMembers ((c :: cs2).length + 1) (c :: cs2)).map
        (fun p => (pyDict p.1, p.2))
    | [] => none
  | _ => none

/-- Parse the elements of an array after the opening bracket; the fuel bounds
the number of elements.  Consumes the closing bracket. -/
def parseElems : Nat → List Char → Option (List RecordJ × List Char)
  | 0, _ => none
  | fuel + 1, cs =>
    match parseRecord cs with
    | none => none
    | some (r, cs1) =>
      match cs1 with
      | ',' :: cs2 => (parseElems fuel cs2).map (fun p => (r :: p.1, p.2))
      | ']' :: cs2 => some ([r], cs2)
      | _ => none

/-- Parse one JSON array of records. -/
def parseArr : List Char → Option (List RecordJ × List Char)
  | '[' :: cs =>
    match cs with
    | c :: cs2 =>
      if c = ']' then some ([], cs2) else parseElems ((c :: cs2).length + 1) (c :: cs2)
    | [] => none
  | _ => none

/-- Model of `json.loads` on the record grammar: strips surrounding
whitespace, parses one top-level value, and requires nothing but whitespace to
remain. -/
def loads (cs0 : List Char) : Option PyVal :=
  let cs := cs0.dropWhile isPySpace
  match cs.head? with
  | some '[' =>
    match parseArr cs with
    | some (rs, rest) => if rest.dropWhile isPySpace = [] then some (.arr rs) else none
    | none => none
  | some '{' =>
    match parseRecord cs with
    | some (r, rest) => if rest.dropWhile isPySpace = [] then some (.obj r) else none
    | none => none
  | _ =>
    match parseScalar cs with
    | some (v, rest) => if rest.dropWhile isPySpace = [] then some (.scal v) else none
    | none => none

/-! ### The response validator (`LLMClient.validate_json_output`) -/

/-- Errors `validate_json_output` can raise: `json.JSONDecodeError` (either
raised by the repair steps or re-raised from `json.loads`) and the `TypeError`
for a top-level value that is neither a list nor a dict. -/
inductive PyErr : Type
  | jsonDecodeError
  | typeError
deriving DecidableEq

/-- The three-backtick fence marker. -/
def fence : List Char := [bt, bt, bt]

/-- The fence marker followed by the letters of the word json. -/
def fenceJson : List Char := fence ++ ['j', 's', 'o', 'n']

/-- Lines 290-296 of src/clients/llm_client.py: strip a leading markdown fence
(with or without the json language tag) and a trailing fence, with Python's
`strip()` applied after each removal. -/
def stripFences (cs0 : List Char) : List Char :=
  let s1 :=
    if startsWithL fenceJson cs0 then pyStrip (cs0.drop 7)
    else if startsWithL fence cs0 then pyStrip (cs0.drop 3)
    else cs0
  if endsWithL fence s1 then pyStrip (s1.take (s1.length - 3)) else s1

/-- Lines 298-307: ensure the text starts with `[` by discarding everything
before the first `[`; `none` models the raised `JSONDecodeError`. -/
def cutToBracketStart (cs : List Char) : Option (List Char) :=
  if startsWithL ['['] cs then some cs
  else
    match pyFind '[' cs with
    | some i => some (cs.drop i)
    | none => none

/-- Lines 309-317: ensure the text ends with `]` by discarding everything
after the last `]`; `none` models the raised `JSONDecodeError`. -/
def cutToBracketEnd (cs : List Char) : Option (List Char) :=
  if endsWithL [']'] cs then some cs
  else
    match pyRfind ']' cs with
    | some j => some (cs.take (j + 1))
    | none => none

/-- Model of `LLMClient.validate_json_output` (src/clients/llm_client.py,
lines 281-336): empty input returns `[]`; markdown fences are stripped; the
text is cut down to the span from the first `[` to the last `]` (raising
`JSONDecodeError` when either bracket is missing); the result is parsed with
`json.loads`; a lone object is wrapped in a singleton list; any other
non-list value raises `TypeError`. -/
def validateJsonOutput (cs0 : List Char) : Except PyErr (List RecordJ) :=
  if cs0 = [] then .ok []
  else
    match cutToBracketStart (stripFences cs0) with
    | none => .error .jsonDecodeError
    | some s3 =>
      match cutToBracketEnd s3 with
      | none => .error .jsonDecodeError
      | some s4 =>
        match loads s4 with
        | none => .error .jsonDecodeError
        | some (.obj r) => .ok [r]
        | some (.arr rs) => .ok rs
        | some (.scal _) => .error .typeError

instance {ε α : Type} [DecidableEq ε] [DecidableEq α] : DecidableEq (Except ε α) := fun a b => by
  cases a <;> cases b
  case error.error e e' =>
    exact if h : e = e' then isTrue (by rw [h]) else isFalse (by intro hc; cases hc; exact h rfl)
  case ok.ok x y =>
    exact if h : x = y then isTrue (by rw [h]) else isFalse (by intro hc; cases hc; exact h rfl)
  all_goals exact isFalse (by intro hc; cases hc)

/-! ### Lemmas about the character-level utilities -/

theorem startsWithL_iff (p cs : List Char) : startsWithL p cs = true ↔ ∃ t, cs = p ++ t := by
  induction p generalizing cs with
  | nil => simp [startsWithL]
  | cons x xs ih =>
    cases cs with
    | nil =>
      simp only [startsWithL]
      constructor
      · intro h; cases h
      · rintro ⟨t, ht⟩; cases ht
    | cons c cs =>
      simp only [startsWithL, Bool.and_eq_true, decide_eq_true_eq, ih]
      constructor
      · rintro ⟨rfl, t, rfl⟩; exact ⟨t, rfl⟩
      · rintro ⟨t, ht⟩
        injection ht with h1 h2
        exact ⟨h1.symm, t, h2⟩

theorem dropWhile_append_eq (xs rest : List Char)
    (h : ∀ c, rest.head? = some c → isPySpace c = false) :
    (xs ++ rest).dropWhile isPySpace = xs.dropWhile isPySpace ++ rest := by
  induction xs with
  | nil =>
    cases rest with
    | nil => rfl
    | cons r t => simp [List.dropWhile_cons, h r rfl]
  | cons x xs ih =>
    by_cases hx : isPySpace x = true
    · simpa [List.dropWhile_cons, hx] using ih
    · simp at hx
      simp [List.dropWhile_cons, hx]

theorem mem_dropWhile_mem {c : Char} {cs : List Char} {f : Char → Bool}
    (h : c ∈ cs.dropWhile f) : c ∈ cs := by
  induction cs with
  | nil => simp [List.dropWhile] at h
  | cons x xs ih =>
    by_cases hx : f x = true
    · simp only [List.dropWhile_cons, hx, if_true] at h
      exact List.mem_cons_of_mem x (ih h)
    · simp only [List.dropWhile_cons, hx] at h
      simpa using h

theorem pyStrip_decomp (p mid s : List Char) (hm : mid ≠ [])
    (hh : ∀ c, mid.head? = some c → isPySpace c = false)
    (hl : ∀ c, mid.reverse.head? = some c → isPySpace c = false) :
    pyStrip (p ++ mid ++ s) =
      p.dropWhile isPySpace ++ mid ++ (s.reverse.dropWhile isPySpace).reverse := by
  obtain ⟨m, mt, rfl⟩ : ∃ m mt, mid = m :: mt := by
    cases mid with
    | nil => exact absurd rfl hm
    | cons m mt => exact ⟨m, mt, rfl⟩
  unfold pyStrip
  rw [List.append_assoc, dropWhile_append_eq p ((m :: mt) ++ s)
    (by
      intro c hc
      have hcm : m = c := by
        rw [List.cons_append] at hc
        simpa using hc
      subst hcm
      exact hh m rfl)]
  have hrev : ∃ r rt, (m :: mt).reverse = r :: rt := by
    cases hx : (m :: mt).reverse with
    | nil => exact absurd hx (by simp [List.reverse_eq_nil_iff])
    | cons r rt => exact ⟨r, rt, rfl⟩
  obtain ⟨r, rt, hrev⟩ := hrev
  rw [show p.dropWhile isPySpace ++ ((m :: mt) ++ s) =
      (p.dropWhile isPySpace ++ (m :: mt)) ++ s by simp [List.append_assoc]]
  rw [List.reverse_append, dropWhile_append_eq s.reverse
      ((p.dropWhile isPySpace ++ (m :: mt)).reverse)
      (by
        intro c hc
        rw [List.reverse_append, hrev] at hc
        simp at hc
        exact hl c (by rw [hrev]; simp [hc]))]
  simp [List.reverse_append, List.append_assoc]

theorem pyFind_not_mem (ch : Char) (cs : List Char) (h : ch ∉ cs) : pyFind ch cs = none := by
  induction cs with
  | nil => rfl
  | cons c cs ih =>
    simp only [List.mem_cons, not_or] at h
    simp [pyFind, Ne.symm h.1, ih h.2]

theorem pyFind_append (ch : Char) (xs ys : List Char) (h : ch ∉ xs) :
    pyFind ch (xs ++ ch :: ys) = some xs.length := by
  induction xs with
  | nil => simp [pyFind]
  | cons x xs ih =>
    simp only [List.mem_cons, not_or] at h
    simp [pyFind, Ne.symm h.1, ih h.2]

theorem pyRfind_not_mem (ch : Char) (cs : List Char) (h : ch ∉ cs) : pyRfind ch cs = none := by
  induction cs with
  | nil => rfl
  | cons c cs ih =>
    simp only [List.mem_cons, not_or] at h
    simp [pyRfind, Ne.symm h.1, ih h.2]

theorem pyRfind_append (ch : Char) (xs ys : List Char) (h : ch ∉ ys) :
    pyRfind ch (xs ++ ch :: ys) = some xs.length := by
  induction xs with
  | nil => simp [pyRfind, pyRfind_not_mem ch ys h]
  | cons x xs ih => simp [pyRfind, ih]

theorem startsWithL_split (ch : Char) (pat p mid s : List Char) (hpat : ch ∉ pat)
    (hmid : mid.head? = some ch) (h : startsWithL pat (p ++ mid ++ s) = true) :
    ∃ p', p = pat ++ p' := by
  rw [startsWithL_iff] at h
  obtain ⟨t, ht⟩ := h
  rw [List.append_assoc] at ht
  rcases List.append_eq_append_iff.mp ht with ⟨a, ha, hb⟩ | ⟨c, hc, _⟩
  · cases a with
    | nil => exact ⟨[], by simpa using ha.symm⟩
    | cons x xs =>
      exfalso
      obtain ⟨m, mt, rfl⟩ : ∃ m mt, mid = m :: mt := by
        cases mid with
        | nil => cases hmid
        | cons m mt => exact ⟨m, mt, rfl⟩
      simp only [List.head?] at hmid
      injection hmid with hmid
      injection hb with hb1 _
      apply hpat
      rw [ha, ← hb1, hmid]
      simp
  · exact ⟨c, hc⟩

theorem endsWithL_split (ch : Char) (pat p mid s : List Char) (hpat : ch ∉ pat)
    (hmid : mid.reverse.head? = some ch) (h : endsWithL pat (p ++ mid ++ s) = true) :
    ∃ s', s = s' ++ pat := by
  unfold endsWithL at h
  rw [show (p ++ mid ++ s).reverse = s.reverse ++ mid.reverse ++ p.reverse by
    simp [List.reverse_append, List.append_assoc]] at h
  obtain ⟨q, hq⟩ := startsWithL_split ch pat.reverse s.reverse mid.reverse p.reverse
    (by simpa using hpat) hmid h
  refine ⟨q.reverse, ?_⟩
  have := congrArg List.reverse hq
  simpa [List.reverse_append] using this

/-! ### Round trip of the scalar serializers through the parser -/

/-- The characters `dumpNatAux` can emit: decimal digits with their values. -/
theorem digitChar_shape (d : Nat) (h : d < 10) :
    (digitChar d).isDigit = true ∧ (digitChar d).toNat = 48 + d ∧
    digitChar d ≠ qc ∧ digitChar d ≠ 'n' ∧ digitChar d ≠ '-' := by
  interval_cases d <;> exact ⟨rfl, rfl, by decide, by decide, by decide⟩

theorem dumpNatAux_acc (fuel : Nat) : ∀ (n : Nat) (acc : List Char),
    dumpNatAux fuel n acc = dumpNatAux fuel n [] ++ acc := by
  induction fuel with
  | zero => intro n acc; simp [dumpNatAux]
  | succ fuel ih =>
    intro n acc
    simp only [dumpNatAux]
    split
    · simp
    · rw [ih (n / 10) (digitChar (n % 10) :: acc), ih (n / 10) [digitChar (n % 10)]]
      simp

theorem dumpNatAux_fuel (n : Nat) : ∀ f1 f2 : Nat, n < f1 → n < f2 →
    dumpNatAux f1 n [] = dumpNatAux f2 n [] := by
  induction n using Nat.strongRecOn with
  | ind n ih =>
    intro f1 f2 h1 h2
    cases f1 with
    | zero => omega
    | succ f1 =>
      cases f2 with
      | zero => omega
      | succ f2 =>
        simp only [dumpNatAux]
        split
        · rfl
        · rw [dumpNatAux_acc f1, dumpNatAux_acc f2]
          have hn : ¬ n < 10 := by assumption
          rw [ih (n / 10) (by omega) f1 f2 (by omega) (by omega)]

theorem dumpNat_small (n : Nat) (h : n < 10) : dumpNat n = [digitChar n] := by
  simp [dumpNat, dumpNatAux, h]

theorem dumpNat_step (n : Nat) (h : ¬ n < 10) :
    dumpNat n = dumpNat (n / 10) ++ [digitChar (n % 10)] := by
  have h1 : dumpNat n = dumpNatAux n (n / 10) [digitChar (n % 10)] := by
    rw [dumpNat]
    rw [show dumpNatAux (n + 1) n [] =
        if n < 10 then digitChar n :: [] else dumpNatAux n (n / 10) (digitChar (n % 10) :: [])
      from rfl]
    rw [if_neg h]
  rw [h1, dumpNatAux_acc n (n / 10) [digitChar (n % 10)], dumpNat]
  rw [dumpNatAux_fuel (n / 10) n (n / 10 + 1) (by omega) (by omega)]

theorem dumpNat_ne_nil (n : Nat) : dumpNat n ≠ [] := by
  by_cases h : n < 10
  · simp [dumpNat_small n h]
  · simp [dumpNat_step n h]

theorem dumpNat_digits (n : Nat) : ∀ c ∈ dumpNat n, ∃ d, d < 10 ∧ c = digitChar d := by
  induction n using Nat.strongRecOn with
  | ind n ih =>
    by_cases h : n < 10
    · rw [dumpNat_small n h]
      intro c hc
      simp at hc
      exact ⟨n, h, hc⟩
    · rw [dumpNat_step n h]
      intro c hc
      rcases List.mem_append.mp hc with hc | hc
      · exact ih (n / 10) (by omega) c hc
      · simp at hc
        exact ⟨n % 10, by omega, hc⟩

/-- One step of reading a decimal number back. -/
def decStep (a : Nat) (c : Char) : Nat := a * 10 + (c.toNat - 48)

/-- Lists whose first character, if any, is not a decimal digit. -/
def noDigitHead (cs : List Char) : Prop := ∀ c, cs.head? = some c → c.isDigit = false

theorem parseDigits_append (ds : List Char) : ∀ (rest : List Char) (a : Nat),
    (∀ c ∈ ds, c.isDigit = true) → noDigitHead rest →
    parseDigits (ds ++ rest) a = (ds.foldl decStep a, rest) := by
  induction ds with
  | nil =>
    intro rest a _ hrest
    cases rest with
    | nil => rfl
    | cons r t => simp [parseDigits, hrest r rfl]
  | cons c cs ih =>
    intro rest a hds hrest
    have hc := hds c (by simp)
    simp only [List.cons_append, parseDigits, hc, if_true, List.foldl_cons]
    exact ih rest (decStep a c) (fun x hx => hds x (by simp [hx])) hrest

theorem readBack_dumpNat (n : Nat) : (dumpNat n).foldl decStep 0 = n := by
  induction n using Nat.strongRecOn with
  | ind n ih =>
    by_cases h : n < 10
    · rw [dumpNat_small n h]
      simp [List.foldl, decStep, (digitChar_shape n h).2.1]
    · rw [dumpNat_step n h, List.foldl_append, ih (n / 10) (by omega)]
      simp only [List.foldl, decStep, (digitChar_shape (n % 10) (by omega)).2.1]
      omega

theorem parseDigits_dumpNat (n : Nat) (rest : List Char) (hrest : noDigitHead rest) :
    parseDigits (dumpNat n ++ rest) 0 = (n, rest) := by
  rw [parseDigits_append (dumpNat n) rest 0
    (by
      intro c hc
      obtain ⟨d, hd, rfl⟩ := dumpNat_digits n c hc
      exact (digitChar_shape d hd).1) hrest]
  rw [readBack_dumpNat n]

theorem hexVal_hexDigit (n : Nat) (h : n < 16) : hexVal (hexDigit n) = some n := by
  interval_cases n <;> decide

theorem hex4_digits (z w : Nat) (hz : z < 16) (hw : w < 16) (tail : List Char) :
    hex4 ('0' :: '0' :: hexDigit z :: hexDigit w :: tail) = some (z * 16 + w, tail) := by
  show (match hexVal '0', hexVal '0', hexVal (hexDigit z), hexVal (hexDigit w) with
    | some x, some y, some z, some w => some (((x * 16 + y) * 16 + z) * 16 + w, tail)
    | _, _, _, _ => none) = some (z * 16 + w, tail)
  rw [hexVal_hexDigit z hz, hexVal_hexDigit w hw]
  show some (((0 * 16 + 0) * 16 + z) * 16 + w, tail) = some (z * 16 + w, tail)
  have h : ((0 * 16 + 0) * 16 + z) * 16 + w = z * 16 + w := by omega
  rw [h]

theorem length_le_length_escList (s : List Char) : s.length ≤ (escList s).length := by
  induction s with
  | nil => simp [escList]
  | cons c cs ih =>
    have h1 : 1 ≤ (escChar c).length := by
      unfold escChar
      split_ifs <;> simp
    simp only [escList, List.length_append, List.length_cons]
    omega

theorem parseStringBodyAux_esc (s : List Char) : ∀ (fuel : Nat) (rest : List Char),
    s.length < fuel →
    parseStringBodyAux fuel (escList s ++ qc :: rest) = some (s, rest) := by
  induction s with
  | nil =>
    intro fuel rest hf
    obtain ⟨f, rfl⟩ : ∃ f, fuel = f + 1 := ⟨fuel - 1, by omega⟩
    show parseStringBodyAux (f + 1) (qc :: rest) = some ([], rest)
    rw [parseStringBodyAux.eq_def]
    simp
  | cons c cs ih =>
    intro fuel rest hf
    obtain ⟨f, rfl⟩ : ∃ f, fuel = f + 1 := ⟨fuel - 1, by omega⟩
    have hfcs : cs.length < f := by simp at hf; omega
    by_cases h1 : c = qc || c = bs
    · have he : escList (c :: cs) ++ qc :: rest = bs :: c :: (escList cs ++ qc :: rest) := by
        simp [escList, escChar, h1]
      rw [he, parseStringBodyAux.eq_def]
      have hbq : ¬ (bs = qc) := by decide
      have hcu : ¬ (c = 'u') := by
        rcases (by simpa using h1 : c = qc ∨ c = bs) with h | h <;> subst h <;> decide
      have hec : escCode c = some c := by
        rcases (by simpa using h1 : c = qc ∨ c = bs) with h | h <;> subst h <;> decide
      simp only [hbq, if_false, if_pos rfl, hcu, hec]
      simp [ih f rest hfcs]
    · have hcq : ¬ (c = qc) := by intro h; apply h1; simp [h]
      have hcb : ¬ (c = bs) := by intro h; apply h1; simp [h]
      by_cases h8 : c = Char.ofNat 8
      · have he : escList (c :: cs) ++ qc :: rest = bs :: 'b' :: (escList cs ++ qc :: rest) := by
          rw [show escList (c :: cs) = escChar c ++ escList cs from rfl, h8,
            show escChar (Char.ofNat 8) = [bs, 'b'] from by decide]
          simp
        rw [he, parseStringBodyAux.eq_def]
        have hbq : ¬ (bs = qc) := by decide
        have hbu : ¬ ('b' = 'u') := by decide
        have hec : escCode 'b' = some (Char.ofNat 8) := by decide
        simp only [hbq, if_false, if_pos rfl, hbu, hec]
        simp [ih f rest hfcs, h8]
      · by_cases h9 : c = Char.ofNat 9
        · have he : escList (c :: cs) ++ qc :: rest = bs :: 't' :: (escList cs ++ qc :: rest) := by
            rw [show escList (c :: cs) = escChar c ++ escList cs from rfl, h9,
              show escChar (Char.ofNat 9) = [bs, 't'] from by decide]
            simp
          rw [he, parseStringBodyAux.eq_def]
          have hbq : ¬ (bs = qc) := by decide
          have hbu : ¬ ('t' = 'u') := by decide
          have hec : escCode 't' = some (Char.ofNat 9) := by decide
          simp only [hbq, if_false, if_pos rfl, hbu, hec]
          simp [ih f rest hfcs, h9]
        · by_cases h10 : c = Char.ofNat 10
          · have he : escList (c :: cs) ++ qc :: rest =
                bs :: 'n' :: (escList cs ++ qc :: rest) := by
              rw [show escList (c :: cs) = escChar c ++ escList cs from rfl, h10,
                show escChar (Char.ofNat 10) = [bs, 'n'] from by decide]
              simp
            rw [he, parseStringBodyAux.eq_def]
            have hbq : ¬ (bs = qc) := by decide
            have hbu : ¬ ('n' = 'u') := by decide
            have hec : escCode 'n' = some (Char.ofNat 10) := by decide
            simp only [hbq, if_false, if_pos rfl, hbu, hec]
            simp [ih f rest hfcs, h10]
          · by_cases h12 : c = Char.ofNat 12
            · have he : escList (c :: cs) ++ qc :: rest =
                  bs :: 'f' :: (escList cs ++ qc :: rest) := by
                rw [show escList (c :: cs) = escChar c ++ escList cs from rfl, h12,
                  show escChar (Char.ofNat 12) = [bs, 'f'] from by decide]
                simp
              rw [he, parseStringBodyAux.eq_def]
              have hbq : ¬ (bs = qc) := by decide
              have hbu : ¬ ('f' = 'u') := by decide
              have hec : escCode 'f' = some (Char.ofNat 12) := by decide
              simp only [hbq, if_false, if_pos rfl, hbu, hec]
              simp [ih f rest hfcs, h12]
            · by_cases h13 : c = Char.ofNat 13
              · have he : escList (c :: cs) ++ qc :: rest =
                    bs :: 'r' :: (escList cs ++ qc :: rest) := by
                  rw [show escList (c :: cs) = escChar c ++ escList cs from rfl, h13,
                    show escChar (Char.ofNat 13) = [bs, 'r'] from by decide]
                  simp
                rw [he, parseStringBodyAux.eq_def]
                have hbq : ¬ (bs = qc) := by decide
                have hbu : ¬ ('r' = 'u') := by decide
                have hec : escCode 'r' = some (Char.ofNat 13) := by decide
                simp only [hbq, if_false, if_pos rfl, hbu, hec]
                simp [ih f rest hfcs, h13]
              · by_cases hctl : c.toNat < 32
                · have hesc : escChar c =
                      [bs, 'u', '0', '0', hexDigit (c.toNat / 16), hexDigit (c.toNat % 16)] := by
                    unfold escChar
                    rw [if_neg (by simpa using h1), if_neg h8, if_neg h9, if_neg h10,
                      if_neg h12, if_neg h13, if_pos hctl]
                  have he : escList (c :: cs) ++ qc :: rest =
                      bs :: 'u' :: '0' :: '0' :: hexDigit (c.toNat / 16) ::
                        hexDigit (c.toNat % 16) :: (escList cs ++ qc :: rest) := by
                    rw [show escList (c :: cs) = escChar c ++ escList cs from rfl, hesc]
                    simp
                  rw [he, parseStringBodyAux.eq_def]
                  have hbq : ¬ (bs = qc) := by decide
                  have h4 := hex4_digits (c.toNat / 16) (c.toNat % 16) (by omega)
                    (Nat.mod_lt _ (by omega)) (escList cs ++ qc :: rest)
                  have hv : c.toNat / 16 * 16 + c.toNat % 16 = c.toNat := by omega
                  rw [hv] at h4
                  have hlt : c.toNat < 55296 := by omega
                  simp [hbq, h4, hlt, ih f rest hfcs, Char.ofNat_toNat]
                · have hesc : escChar c = [c] := by
                    unfold escChar
                    rw [if_neg (by simpa using h1), if_neg h8, if_neg h9, if_neg h10,
                      if_neg h12, if_neg h13, if_neg hctl]
                  have he : escList (c :: cs) ++ qc :: rest =
                      c :: (escList cs ++ qc :: rest) := by
                    rw [show escList (c :: cs) = escChar c ++ escList cs from rfl, hesc]
                    simp
                  rw [he, parseStringBodyAux.eq_def]
                  simp only [hcq, if_false, hcb, hctl]
                  simp [ih f rest hfcs]

theorem parseStringBody_esc (s : List Char) : ∀ rest : List Char,
    parseStringBody (escList s ++ qc :: rest) = some (s, rest) := by
  intro rest
  unfold parseStringBody
  refine parseStringBodyAux_esc s _ rest ?_
  have h := length_le_length_escList s
  simp only [List.length_append, List.length_cons]
  omega

theorem parseScalar_dump (v : Scalar) (rest : List Char) (hrest : noDigitHead rest) :
    parseScalar (dumpScalar v ++ rest) = some (v, rest) := by
  cases v with
  | str s =>
    have h1 : dumpScalar (.str s) ++ rest = qc :: (escList s ++ qc :: rest) := by
      simp [dumpScalar]
    rw [h1, parseScalar.eq_def]
    simp [parseStringBody_esc s rest]
  | int n =>
    by_cases hn : n < 0
    · obtain ⟨c0, cs0, h0⟩ : ∃ c0 cs0, dumpNat n.natAbs = c0 :: cs0 := by
        cases hd : dumpNat n.natAbs with
        | nil => exact absurd hd (dumpNat_ne_nil _)
        | cons c0 cs0 => exact ⟨c0, cs0, rfl⟩
      obtain ⟨d, hd, hc0⟩ := dumpNat_digits n.natAbs c0 (by rw [h0]; simp)
      subst hc0
      obtain ⟨hdig, _, hq, hnn, hmin⟩ := digitChar_shape d hd
      have h2 : parseDigits (digitChar d :: (cs0 ++ rest)) 0 = (n.natAbs, rest) := by
        have h3 := parseDigits_dumpNat n.natAbs rest hrest
        rwa [h0, List.cons_append] at h3
      have h1 : dumpScalar (.int n) ++ rest = '-' :: (digitChar d :: (cs0 ++ rest)) := by
        simp [dumpScalar, if_pos hn, h0]
      have hni : -(n.natAbs : Int) = n := by omega
      have e1 : ¬ ('-' = qc) := by decide
      have e2 : ¬ ('-' = 'n') := by decide
      rw [h1, parseScalar.eq_def]
      simp [e1, e2, hdig, h2, hni]
      rw [abs_of_neg hn]
      ring
    · obtain ⟨c0, cs0, h0⟩ : ∃ c0 cs0, dumpNat n.toNat = c0 :: cs0 := by
        cases hd : dumpNat n.toNat with
        | nil => exact absurd hd (dumpNat_ne_nil _)
        | cons c0 cs0 => exact ⟨c0, cs0, rfl⟩
      obtain ⟨d, hd, hc0⟩ := dumpNat_digits n.toNat c0 (by rw [h0]; simp)
      subst hc0
      obtain ⟨hdig, _, hq, hnn, hmin⟩ := digitChar_shape d hd
      have h2 : parseDigits (digitChar d :: (cs0 ++ rest)) 0 = (n.toNat, rest) := by
        have h3 := parseDigits_dumpNat n.toNat rest hrest
        rwa [h0, List.cons_append] at h3
      have h1 : dumpScalar (.int n) ++ rest = digitChar d :: (cs0 ++ rest) := by
        simp [dumpScalar, if_neg hn, h0]
      have hni : ((n.toNat : Int)) = n := by omega
      rw [h1, parseScalar.eq_def]
      simp [hq, hnn, hmin, hdig, h2, hni]
  | null =>
    have hq : ¬ ('n' = qc) := by decide
    have h1 : dumpScalar .null ++ rest = 'n' :: ('u' :: 'l' :: 'l' :: rest) := by
      simp [dumpScalar]
    rw [h1, parseScalar.eq_def]
    simp [hq]

/-! ### Round trip of whole records and arrays -/

theorem noDigitHead_cons (c : Char) (rest : List Char) (h : c.isDigit = false) :
    noDigitHead (c :: rest) := by
  intro x hx
  have : c = x := by simpa using hx
  rwa [← this]

theorem dumpMembers_cons_shape (m : List Char × Scalar) (ms : RecordJ) :
    ∃ t, dumpMembers (m :: ms) = qc :: t := by
  obtain ⟨k, v⟩ := m
  cases ms with
  | nil => exact ⟨escList k ++ [qc, ':'] ++ dumpScalar v, by simp [dumpMembers]⟩
  | cons m2 ms2 =>
    exact ⟨escList k ++ [qc, ':'] ++ dumpScalar v ++ ',' :: dumpMembers (m2 :: ms2),
      by simp [dumpMembers]⟩

theorem length_dumpMembers (r : RecordJ) : r.length ≤ (dumpMembers r).length := by
  induction r with
  | nil => simp [dumpMembers]
  | cons m ms ih =>
    cases ms with
    | nil =>
      obtain ⟨k, v⟩ := m
      simp [dumpMembers]
    | cons m2 ms2 =>
      obtain ⟨k, v⟩ := m
      simp only [dumpMembers, List.length_cons, List.length_append] at *
      omega

theorem parseMembers_dump (r : RecordJ) : ∀ (fuel : Nat) (rest : List Char), r ≠ [] →
    r.length ≤ fuel →
    parseMembers fuel (dumpMembers r ++ '}' :: rest) = some (r, rest) := by
  induction r with
  | nil => intro _ _ h _; exact absurd rfl h
  | cons m ms ih =>
    obtain ⟨k, v⟩ := m
    intro fuel rest _ hfuel
    obtain ⟨f, rfl⟩ : ∃ f, fuel = f + 1 := ⟨fuel - 1, by simp at hfuel; omega⟩
    cases ms with
    | nil =>
      have h1 : dumpMembers [(k, v)] ++ '}' :: rest =
          qc :: (escList k ++ qc :: (':' :: (dumpScalar v ++ '}' :: rest))) := by
        simp [dumpMembers]
      rw [h1, parseMembers.eq_def]
      simp [parseStringBody_esc k (':' :: (dumpScalar v ++ '}' :: rest)),
        parseScalar_dump v ('}' :: rest) (noDigitHead_cons _ _ (by decide))]
    | cons m2 ms2 =>
      have h1 : dumpMembers ((k, v) :: m2 :: ms2) ++ '}' :: rest =
          qc :: (escList k ++ qc ::
            (':' :: (dumpScalar v ++ ',' :: (dumpMembers (m2 :: ms2) ++ '}' :: rest)))) := by
        simp [dumpMembers]
      rw [h1, parseMembers.eq_def]
      simp [parseStringBody_esc k
          (':' :: (dumpScalar v ++ ',' :: (dumpMembers (m2 :: ms2) ++ '}' :: rest))),
        parseScalar_dump v (',' :: (dumpMembers (m2 :: ms2) ++ '}' :: rest))
          (noDigitHead_cons _ _ (by decide)),
        ih f rest (by simp) (by simp at hfuel ⊢; omega)]

theorem foldl_setItem_fresh (t : RecordJ) : ∀ acc : RecordJ,
    ((acc ++ t).map Prod.fst).Nodup →
    t.foldl (fun a kv => setItem a kv.1 kv.2) acc = acc ++ t := by
  induction t with
  | nil => intro acc _; simp
  | cons kv t ih =>
    obtain ⟨k, v⟩ := kv
    intro acc h
    have h' := h
    rw [List.map_append, List.nodup_append] at h'
    obtain ⟨_, _, hdisj⟩ := h'
    have hk : ∀ p ∈ acc, ¬ p.1 = k := by
      intro p hp hpk
      have hm1 : k ∈ acc.map Prod.fst := by
        rw [← hpk]
        exact List.mem_map.mpr ⟨p, hp, rfl⟩
      have hm2 : k ∈ ((k, v) :: t).map Prod.fst := by
        rw [List.map_cons]
        exact List.mem_cons_self _ _
      exact hdisj hm1 hm2
    have hany : acc.any (fun p => p.1 == k) = false := by
      rw [List.any_eq_false]
      intro p hp
      simpa using hk p hp
    have hstep : setItem acc k v = acc ++ [(k, v)] := by
      unfold setItem
      rw [hany]
      simp
    have hre : acc ++ (k, v) :: t = (acc ++ [(k, v)]) ++ t := by simp
    rw [List.foldl_cons]
    show t.foldl (fun a kv => setItem a kv.1 kv.2) (setItem acc k v) = acc ++ (k, v) :: t
    rw [hstep, ih (acc ++ [(k, v)]) (by rw [← hre]; exact h), hre]

theorem pyDict_nodupKeys (r : RecordJ) (h : (r.map Prod.fst).Nodup) : pyDict r = r := by
  have h2 := foldl_setItem_fresh r [] (by simpa using h)
  simpa [pyDict] using h2

theorem parseRecord_dump (r : RecordJ) (rest : List Char)
    (hk : (r.map Prod.fst).Nodup) :
    parseRecord (dumpRecord r ++ rest) = some (r, rest) := by
  cases r with
  | nil =>
    have h1 : dumpRecord [] ++ rest = '{' :: ('}' :: rest) := by
      simp [dumpRecord, dumpMembers]
    rw [h1]
    rfl
  | cons m ms =>
    obtain ⟨t, ht⟩ := dumpMembers_cons_shape m ms
    have h1 : dumpRecord (m :: ms) ++ rest = '{' :: (qc :: (t ++ '}' :: rest)) := by
      simp [dumpRecord, ht]
    rw [h1]
    show (if qc = '}' then some (([] : RecordJ), t ++ '}' :: rest)
      else (parseMembers ((qc :: (t ++ '}' :: rest)).length + 1)
        (qc :: (t ++ '}' :: rest))).map (fun p => (pyDict p.1, p.2))) =
      some (m :: ms, rest)
    rw [if_neg (show ¬ (qc = '}') by decide)]
    have h3 : qc :: (t ++ '}' :: rest) = dumpMembers (m :: ms) ++ '}' :: rest := by
      rw [ht]
      simp
    rw [h3]
    have hb : (m :: ms).length ≤ (dumpMembers (m :: ms) ++ '}' :: rest).length + 1 := by
      have ha := length_dumpMembers (m :: ms)
      have hc : (dumpMembers (m :: ms) ++ '}' :: rest).length =
          (dumpMembers (m :: ms)).length + rest.length + 1 := by
        simp only [List.length_append, List.length_cons]
        omega
      omega
    rw [parseMembers_dump (m :: ms) _ rest (by simp) hb]
    simp [pyDict_nodupKeys (m :: ms) hk]

theorem dumpRecord_head (r : RecordJ) : ∃ t, dumpRecord r = '{' :: t :=
  ⟨dumpMembers r ++ ['}'], by simp [dumpRecord]⟩

theorem length_dumpElems (rs : List RecordJ) : rs.length ≤ (dumpElems rs).length := by
  induction rs with
  | nil => simp [dumpElems]
  | cons r rs ih =>
    cases rs with
    | nil =>
      simp only [dumpElems, List.length_cons, List.length_nil]
      obtain ⟨t, ht⟩ := dumpRecord_head r
      rw [ht]
      simp
    | cons r2 rs2 =>
      obtain ⟨t, ht⟩ := dumpRecord_head r
      rw [show dumpElems (r :: r2 :: rs2) = dumpRecord r ++ ',' :: dumpElems (r2 :: rs2) from by
        simp [dumpElems]]
      rw [ht]
      simp only [List.length_cons, List.length_append] at ih ⊢
      omega

theorem parseElems_dump (rs : List RecordJ) : ∀ (fuel : Nat) (rest : List Char), rs ≠ [] →
    rs.length ≤ fuel → (∀ r ∈ rs, (r.map Prod.fst).Nodup) →
    parseElems fuel (dumpElems rs ++ ']' :: rest) = some (rs, rest) := by
  induction rs with
  | nil => intro _ _ h _ _; exact absurd rfl h
  | cons r rs ih =>
    intro fuel rest _ hfuel hks
    obtain ⟨f, rfl⟩ : ∃ f, fuel = f + 1 := ⟨fuel - 1, by simp at hfuel; omega⟩
    cases rs with
    | nil =>
      have h1 : dumpElems [r] ++ ']' :: rest = dumpRecord r ++ ']' :: rest := by
        simp [dumpElems]
      rw [h1, parseElems.eq_def]
      simp [parseRecord_dump r (']' :: rest) (hks r (by simp))]
    | cons r2 rs2 =>
      have h1 : dumpElems (r :: r2 :: rs2) ++ ']' :: rest =
          dumpRecord r ++ ',' :: (dumpElems (r2 :: rs2) ++ ']' :: rest) := by
        simp [dumpElems]
      rw [h1, parseElems.eq_def]
      simp [parseRecord_dump r (',' :: (dumpElems (r2 :: rs2) ++ ']' :: rest))
          (hks r (by simp)),
        ih f rest (by simp) (by simp at hfuel ⊢; omega)
          (fun x hx => hks x (List.mem_cons_of_mem r hx))]

theorem parseArr_dumps (rs : List RecordJ) (hks : ∀ r ∈ rs, (r.map Prod.fst).Nodup) :
    parseArr (dumps rs) = some (rs, []) := by
  cases rs with
  | nil => rfl
  | cons r rs =>
    obtain ⟨t, ht⟩ := dumpRecord_head r
    have hsh : ∃ u, dumpElems (r :: rs) = '{' :: u := by
      cases rs with
      | nil => exact ⟨t, by simpa [dumpElems] using ht⟩
      | cons r2 rs2 => exact ⟨t ++ ',' :: dumpElems (r2 :: rs2), by simp [dumpElems, ht]⟩
    obtain ⟨u, hu⟩ := hsh
    have h1 : dumps (r :: rs) = '[' :: ('{' :: (u ++ [']'])) := by
      simp [dumps, hu]
    rw [h1]
    show (if '{' = ']' then some (([] : List RecordJ), u ++ [']'])
      else parseElems (('{' :: (u ++ [']'])).length + 1) ('{' :: (u ++ [']']))) =
      some (r :: rs, [])
    rw [if_neg (show ¬ ('{' = ']') by decide)]
    have h3 : '{' :: (u ++ [']']) = dumpElems (r :: rs) ++ ']' :: [] := by
      rw [hu]
      simp
    rw [h3]
    have hb : (r :: rs).length ≤ (dumpElems (r :: rs) ++ ']' :: ([] : List Char)).length + 1 :=
      le_trans (length_dumpElems (r :: rs)) (by simp only [List.length_append]; omega)
    exact parseElems_dump (r :: rs) _ [] (by simp) hb hks

theorem loads_dumps (rs : List RecordJ) (hks : ∀ r ∈ rs, (r.map Prod.fst).Nodup) :
    loads (dumps rs) = some (.arr rs) := by
  have h0 : dumps rs = '[' :: (dumpElems rs ++ [']']) := by simp [dumps]
  have hsp : isPySpace '[' = false := by decide
  have h1 : (dumps rs).dropWhile isPySpace = dumps rs := by
    rw [h0, List.dropWhile_cons, hsp]
    simp
  have h2 : (dumps rs).head? = some '[' := by rw [h0]; rfl
  simp only [loads, h1, h2]
  simp [parseArr_dumps rs hks]

/-! ### The repair steps on text surrounding a serialized array -/

theorem dumps_cons_shape (rs : List RecordJ) : dumps rs = '[' :: (dumpElems rs ++ [']']) := by
  simp [dumps]

theorem dumps_ne_nil (rs : List RecordJ) : dumps rs ≠ [] := by
  rw [dumps_cons_shape]
  simp

theorem dumps_head (rs : List RecordJ) : (dumps rs).head? = some '[' := by
  rw [dumps_cons_shape]
  rfl

theorem dumps_rev_head (rs : List RecordJ) : (dumps rs).reverse.head? = some ']' := by
  rw [dumps_cons_shape]
  simp [List.reverse_append]

theorem not_mem_trimL (ch : Char) (p : List Char) (h : ch ∉ p) :
    ch ∉ p.dropWhile isPySpace :=
  fun hc => h (mem_dropWhile_mem hc)

theorem not_mem_trimR (ch : Char) (s : List Char) (h : ch ∉ s) :
    ch ∉ (s.reverse.dropWhile isPySpace).reverse := by
  intro hc
  rw [List.mem_reverse] at hc
  exact h (List.mem_reverse.mp (mem_dropWhile_mem hc))

theorem pyStrip_dumps (A : List RecordJ) (p s : List Char) :
    pyStrip (p ++ dumps A ++ s) =
      p.dropWhile isPySpace ++ dumps A ++ (s.reverse.dropWhile isPySpace).reverse := by
  refine pyStrip_decomp p (dumps A) s (dumps_ne_nil A) ?_ ?_
  · intro c hc
    rw [dumps_head A] at hc
    injection hc with hc
    rw [← hc]
    decide
  · intro c hc
    rw [dumps_rev_head A] at hc
    injection hc with hc
    rw [← hc]
    decide

theorem stripFences_decomp (A : List RecordJ) (p s : List Char) (hp : '[' ∉ p)
    (hs : ']' ∉ s) :
    ∃ p1 s1, stripFences (p ++ dumps A ++ s) = p1 ++ dumps A ++ s1 ∧ '[' ∉ p1 ∧ ']' ∉ s1 := by
  have step1 : ∃ p1 s1,
      (if startsWithL fenceJson (p ++ dumps A ++ s) then pyStrip ((p ++ dumps A ++ s).drop 7)
       else if startsWithL fence (p ++ dumps A ++ s) then pyStrip ((p ++ dumps A ++ s).drop 3)
       else p ++ dumps A ++ s) = p1 ++ dumps A ++ s1 ∧ '[' ∉ p1 ∧ ']' ∉ s1 := by
    by_cases h1 : startsWithL fenceJson (p ++ dumps A ++ s) = true
    · obtain ⟨p', rfl⟩ := startsWithL_split '[' fenceJson p (dumps A) s (by decide)
        (dumps_head A) h1
      have hp' : '[' ∉ p' := fun hc => hp (by simp [hc])
      refine ⟨p'.dropWhile isPySpace, (s.reverse.dropWhile isPySpace).reverse, ?_,
        not_mem_trimL _ _ hp', not_mem_trimR _ _ hs⟩
      rw [if_pos h1]
      rw [show ((fenceJson ++ p') ++ dumps A ++ s).drop 7 = p' ++ dumps A ++ s by
        rw [show (7 : Nat) = fenceJson.length from rfl, List.append_assoc, List.append_assoc,
          List.drop_left, ← List.append_assoc]]
      exact pyStrip_dumps A p' s
    · by_cases h2 : startsWithL fence (p ++ dumps A ++ s) = true
      · obtain ⟨p', rfl⟩ := startsWithL_split '[' fence p (dumps A) s (by decide)
          (dumps_head A) h2
        have hp' : '[' ∉ p' := fun hc => hp (by simp [hc])
        refine ⟨p'.dropWhile isPySpace, (s.reverse.dropWhile isPySpace).reverse, ?_,
          not_mem_trimL _ _ hp', not_mem_trimR _ _ hs⟩
        rw [if_neg h1, if_pos h2]
        rw [show ((fence ++ p') ++ dumps A ++ s).drop 3 = p' ++ dumps A ++ s by
          rw [show (3 : Nat) = fence.length from rfl, List.append_assoc, List.append_assoc,
            List.drop_left, ← List.append_assoc]]
        exact pyStrip_dumps A p' s
      · exact ⟨p, s, by rw [if_neg h1, if_neg h2], hp, hs⟩
  obtain ⟨p1, s1, he, hp1, hs1⟩ := step1
  unfold stripFences
  rw [he]
  by_cases h3 : endsWithL fence (p1 ++ dumps A ++ s1) = true
  · obtain ⟨s', rfl⟩ := endsWithL_split ']' fence p1 (dumps A) s1 (by decide)
      (dumps_rev_head A) h3
    have hs' : ']' ∉ s' := fun hc => hs1 (by simp [hc])
    refine ⟨p1.dropWhile isPySpace, (s'.reverse.dropWhile isPySpace).reverse, ?_,
      not_mem_trimL _ _ hp1, not_mem_trimR _ _ hs'⟩
    rw [if_pos h3]
    rw [show (p1 ++ dumps A ++ (s' ++ fence)).take ((p1 ++ dumps A ++ (s' ++ fence)).length - 3) =
        p1 ++ dumps A ++ s' by
      rw [show p1 ++ dumps A ++ (s' ++ fence) = (p1 ++ dumps A ++ s') ++ fence by
        simp [List.append_assoc]]
      rw [show ((p1 ++ dumps A ++ s') ++ fence).length - 3 = (p1 ++ dumps A ++ s').length by
        simp [fence]
        omega]
      exact List.take_left _ _]
    exact pyStrip_dumps A p1 s'
  · exact ⟨p1, s1, by rw [if_neg h3], hp1, hs1⟩

theorem startsWithL_singleton (ch : Char) (cs : List Char) :
    startsWithL [ch] cs = true ↔ cs.head? = some ch := by
  cases cs with
  | nil => simp [startsWithL]
  | cons c t => simp [startsWithL, eq_comm]

theorem cutToBracketStart_decomp (A : List RecordJ) (p s : List Char) (hp : '[' ∉ p) :
    cutToBracketStart (p ++ dumps A ++ s) = some (dumps A ++ s) := by
  unfold cutToBracketStart
  cases p with
  | nil =>
    have h1 : startsWithL ['['] ([] ++ dumps A ++ s) = true := by
      rw [startsWithL_singleton]
      rw [dumps_cons_shape]
      rfl
    rw [if_pos h1]
    simp
  | cons c p' =>
    have hc : ¬ ('[' = c) := fun h => hp (by simp [← h])
    have h1 : ¬ (startsWithL ['['] ((c :: p') ++ dumps A ++ s) = true) := by
      rw [startsWithL_singleton]
      intro h
      rw [List.cons_append, List.cons_append] at h
      injection h with h
      exact hc h.symm
    rw [if_neg h1]
    have h2 : (c :: p') ++ dumps A ++ s = (c :: p') ++ '[' :: ((dumpElems A ++ [']']) ++ s) := by
      rw [dumps_cons_shape]
      simp
    rw [h2, pyFind_append '[' (c :: p') ((dumpElems A ++ [']']) ++ s) hp]
    show some (((c :: p') ++ '[' :: ((dumpElems A ++ [']']) ++ s)).drop (c :: p').length) =
      some (dumps A ++ s)
    rw [List.drop_left]
    rw [dumps_cons_shape]
    simp

theorem cutToBracketEnd_decomp (A : List RecordJ) (s : List Char) (hs : ']' ∉ s) :
    cutToBracketEnd (dumps A ++ s) = some (dumps A) := by
  unfold cutToBracketEnd
  cases s with
  | nil =>
    have h1 : endsWithL [']'] (dumps A ++ []) = true := by
      unfold endsWithL
      rw [List.reverse_singleton, startsWithL_singleton]
      simp [dumps_rev_head A]
    rw [if_pos h1]
    simp
  | cons c s' =>
    have h1 : ¬ (endsWithL [']'] (dumps A ++ c :: s') = true) := by
      unfold endsWithL
      rw [List.reverse_singleton, startsWithL_singleton]
      intro h
      obtain ⟨r, rt, hr⟩ : ∃ r rt, (c :: s').reverse = r :: rt := by
        cases hx : (c :: s').reverse with
        | nil => exact absurd hx (by simp [List.reverse_eq_nil_iff])
        | cons r rt => exact ⟨r, rt, rfl⟩
      rw [List.reverse_append, hr, List.cons_append] at h
      injection h with h
      have : r ∈ c :: s' := by
        rw [← List.mem_reverse, hr]
        simp
      rw [h] at this
      exact hs this
    rw [if_neg h1]
    have h2 : dumps A ++ c :: s' = ('[' :: dumpElems A) ++ ']' :: (c :: s') := by
      rw [dumps_cons_shape]
      simp
    rw [h2, pyRfind_append ']' ('[' :: dumpElems A) (c :: s') hs]
    show some ((('[' :: dumpElems A) ++ ']' :: (c :: s')).take (('[' :: dumpElems A).length + 1)) =
      some (dumps A)
    rw [show ('[' :: dumpElems A).length + 1 = (('[' :: dumpElems A) ++ [']']).length by simp]
    rw [show ('[' :: dumpElems A) ++ ']' :: (c :: s') =
        (('[' :: dumpElems A) ++ [']']) ++ (c :: s') by simp]
    rw [List.take_left]
    rw [dumps_cons_shape]
    simp

/-! ### Configuration, pricing and usage metadata (src/config.py, llm_client.py) -/

/-- The configuration flags of config.py that the batch pipeline reads. -/
structure Config : Type where
  calculateCost : Bool
  enableCheckpointing : Bool
  resumeFromCheckpoint : Bool
deriving DecidableEq

/-- One entry of MODEL_PRICING: per-million-token rates. -/
structure Pricing : Type where
  inputCostPerMillionTokens : ℚ
  outputCostPerMillionTokens : ℚ
  thinkingCostPerMillionTokens : ℚ
deriving DecidableEq

/-- The usage_metadata dict produced by LLMClient._generate_content. -/
structure Usage : Type where
  promptTokenCount : Nat
  candidatesTokenCount : Nat
  totalTokenCount : Nat
  thinkingEnabled : Bool
  thinkingBudget : Nat
  thinkingTokensUsed : Nat
  thinkingBudgetExceeded : Bool
deriving DecidableEq

/-- The dict returned by LLMClient._generate_content as seen by the callers:
response text, optional usage metadata, and whether the error entry is set
(the model keeps only the presence of an error message, not its text). -/
structure LLMResponse : Type where
  text : List Char
  usageMetadata : Option Usage
  error : Bool
deriving DecidableEq

/-- Thinking tokens derived on line 212 of src/clients/llm_client.py:
`max(0, total_token_count - prompt_token_count - candidates_token_count)`. -/
def derivedThinkingTokens (promptT candT totalT : Nat) : Nat :=
  ((totalT : Int) - (promptT : Int) - (candT : Int)).toNat

/-- The usage_metadata dict built on lines 205-228 of src/clients/llm_client.py
from the API-reported token counts. -/
def mkUsageFromApi (logThinking : Bool) (thinkingBudget promptT candT totalT : Nat) : Usage :=
  let ttu := derivedThinkingTokens promptT candT totalT
  { promptTokenCount := promptT
    candidatesTokenCount := candT
    totalTokenCount := totalT
    thinkingEnabled := logThinking
    thinkingBudget := if logThinking then thinkingBudget else 0
    thinkingTokensUsed := if logThinking then ttu else 0
    thinkingBudgetExceeded := if logThinking then decide (ttu > thinkingBudget) else false }

/-! ### Cost accounting (BaseExtractor._calculate_and_log_cost and the worker) -/

/-- The per-call cost computed inside BaseExtractor._calculate_and_log_cost
(src/extractors/base_extractor.py, lines 89-106). -/
def callCost (pricing : Pricing) (u : Usage) : ℚ :=
  let inputCost := (u.promptTokenCount : ℚ) / 1000000 * pricing.inputCostPerMillionTokens
  let outputCost := (u.candidatesTokenCount : ℚ) / 1000000 * pricing.outputCostPerMillionTokens
  let thinkingCost :=
    if u.thinkingEnabled && decide (0 < u.thinkingTokensUsed) then
      (u.thinkingTokensUsed : ℚ) / 1000000 * pricing.thinkingCostPerMillionTokens
    else 0
  inputCost + outputCost + thinkingCost

/-- BaseExtractor._calculate_and_log_cost (lines 73-137): the returned cost and
the list of usage entries it appends to self.usage_metadata_list. -/
def calcAndLogCost (calculateCost : Bool) (pricing : Pricing) (u : Option Usage) :
    ℚ × List Usage :=
  if calculateCost then
    match u with
    | none => (0, [])
    | some u => (callCost pricing u, [u])
  else (0, [])

/-- The per-call cost computed inside the parallel worker
BaseExtractor._process_file_wrapper (lines 505-519).  Unlike
`_calculate_and_log_cost`, it does not consult CALCULATE_COST and has no
positive-token guard on the thinking part. -/
def workerCost (pricing : Pricing) (u : Usage) : ℚ :=
  let ttu := if u.thinkingEnabled then u.thinkingTokensUsed else 0
  let inputCost := (u.promptTokenCount : ℚ) / 1000000 * pricing.inputCostPerMillionTokens
  let outputCost := (u.candidatesTokenCount : ℚ) / 1000000 * pricing.outputCostPerMillionTokens
  let thinkingCost :=
    if u.thinkingEnabled then (ttu : ℚ) / 1000000 * pricing.thinkingCostPerMillionTokens
    else 0
  inputCost + outputCost + thinkingCost

/-! ### The batch scheduler (BaseExtractor.process_file / process_directory) -/

/-- Canonical file path strings. -/
abbrev PathStr : Type := List Char

/-- What happens to one file at the read/recognize stage, as seen by
process_file: InputHandler.read_file can raise (FileNotFoundError /
ValueError), return a falsy value, or return a dict with an unsupported kind;
otherwise the Recognizer returns its response dict. -/
inductive FileEvent : Type
  | readRaises
  | readEmpty
  | badKind
  | resp (r : LLMResponse)
deriving DecidableEq

/-- The mutable state of a BaseExtractor instance (the fields of __init__ that
the batch pipeline touches), together with the checkpoint file content
(`checkpointStore`, `none` when the file does not exist) and the sink
accumulator (OutputManager.all_data). -/
structure ExtractorState : Type where
  totalCost : ℚ
  usageMetadataList : List Usage
  runTotalFiles : Nat
  runSuccessfulFiles : Nat
  runFailedFiles : Nat
  statusSuccessful : List PathStr
  statusFailed : List PathStr
  statusSkipped : List PathStr
  processedFiles : Finset PathStr
  checkpointStore : Option (Finset PathStr)
  sinkData : List RecordJ
deriving DecidableEq

/-- The state right after BaseExtractor.__init__, given the current checkpoint
file content. -/
def freshState (store : Option (Finset PathStr)) : ExtractorState :=
  { totalCost := 0
    usageMetadataList := []
    runTotalFiles := 0
    runSuccessfulFiles := 0
    runFailedFiles := 0
    statusSuccessful := []
    statusFailed := []
    statusSkipped := []
    processedFiles := ∅
    checkpointStore := store
    sinkData := [] }

/-- The failure bookkeeping every except-branch of process_file performs. -/
def markFailed (st : ExtractorState) (path : PathStr) : ExtractorState :=
  { st with
    runFailedFiles := st.runFailedFiles + 1
    statusFailed := st.statusFailed ++ [path] }

/-- BaseExtractor._save_checkpoint (lines 139-149). -/
def saveCheckpoint (cfg : Config) (st : ExtractorState) : ExtractorState :=
  if cfg.enableCheckpointing then { st with checkpointStore := some st.processedFiles } else st

/-- BaseExtractor._load_checkpoint (lines 151-161). -/
def loadCheckpoint (cfg : Config) (st : ExtractorState) : ExtractorState :=
  if cfg.resumeFromCheckpoint then
    match st.checkpointStore with
    | some saved => { st with processedFiles := saved }
    | none => st
  else st

/-- BaseExtractor.process_file (lines 163-273): the full per-file life cycle
in sequential mode, returning the new state and the returned records. -/
def processFile (cfg : Config) (pricing : Pricing) (path : PathStr) (ev : FileEvent)
    (st0 : ExtractorState) : ExtractorState × Option (List RecordJ) :=
  let st := { st0 with runTotalFiles := st0.runTotalFiles + 1 }
  match ev with
  | .readRaises => (markFailed st path, none)
  | .readEmpty => (markFailed st path, none)
  | .badKind => (markFailed st path, none)
  | .resp r =>
    if r.error then
      let cu := calcAndLogCost cfg.calculateCost pricing r.usageMetadata
      (markFailed
        { st with
          totalCost := st.totalCost + cu.1
          usageMetadataList := st.usageMetadataList ++ cu.2 } path, none)
    else
      let cu := calcAndLogCost cfg.calculateCost pricing r.usageMetadata
      let st1 :=
        { st with
          totalCost := st.totalCost + cu.1
          usageMetadataList := st.usageMetadataList ++ cu.2 }
      match validateJsonOutput r.text with
      | .error _ => (markFailed st1 path, none)
      | .ok records =>
        let st2 :=
          { st1 with
            runSuccessfulFiles := st1.runSuccessfulFiles + 1
            statusSuccessful := st1.statusSuccessful ++ [path] }
        let st3 :=
          { st2 with
            sinkData := if records = [] then st2.sinkData else st2.sinkData ++ records }
        let st4 := saveCheckpoint cfg
          { st3 with processedFiles := insert path st3.processedFiles }
        (st4, some records)

/-- One iteration of the sequential loop of process_directory (lines 399-412):
skip checkpointed files, otherwise run process_file. -/
def seqStep (cfg : Config) (pricing : Pricing) (st : ExtractorState)
    (fe : PathStr × FileEvent) : ExtractorState :=
  if fe.1 ∈ st.processedFiles then
    { st with statusSkipped := st.statusSkipped ++ [fe.1] }
  else (processFile cfg pricing fe.1 fe.2 st).1

/-- The reset of the run accumulators at the top of process_directory
(lines 293-306): total cost, usage list and run_metadata are recomputed for
each invocation; the file_status lists and the processed set are untouched. -/
def resetRun (st : ExtractorState) : ExtractorState :=
  { st with
    totalCost := 0
    usageMetadataList := []
    runTotalFiles := 0
    runSuccessfulFiles := 0
    runFailedFiles := 0 }

/-- BaseExtractor.process_directory in sequential mode (lines 275-443 with
parallel=False): reset the run accumulators, return early on an empty catalog,
load the checkpoint, then process the files in catalog order. -/
def processDirectorySeq (cfg : Config) (pricing : Pricing)
    (files : List (PathStr × FileEvent)) (st0 : ExtractorState) : ExtractorState :=
  if files = [] then resetRun st0
  else files.foldl (seqStep cfg pricing) (loadCheckpoint cfg (resetRun st0))

/-- The result tuple of BaseExtractor._process_file_wrapper (lines 445-566):
(records, cost, success flag, usage metadata). -/
def workerWrapper (pricing : Pricing) (ev : FileEvent) :
    Option (List RecordJ) × ℚ × Bool × Option Usage :=
  match ev with
  | .readRaises => (none, 0, false, none)
  | .readEmpty => (none, 0, false, none)
  | .badKind => (none, 0, false, none)
  | .resp r =>
    if r.error then (none, 0, false, r.usageMetadata)
    else
      let fc : ℚ :=
        match r.usageMetadata with
        | none => 0
        | some u => workerCost pricing u
      match validateJsonOutput r.text with
      | .error _ => (none, fc, false, r.usageMetadata)
      | .ok records => (some records, fc, true, r.usageMetadata)

/-- Collection of one worker result in the parallel loop of process_directory
(lines 361-397), together with the worker-side checkpoint file update (lines
524-555, serialized by the advisory flock). -/
def parCollect (cfg : Config) (pricing : Pricing) (st : ExtractorState)
    (fe : PathStr × FileEvent) : ExtractorState :=
  let res := workerWrapper pricing fe.2
  let st1 :=
    if res.2.2.1 then
      let stS :=
        { st with
          runSuccessfulFiles := st.runSuccessfulFiles + 1
          statusSuccessful := st.statusSuccessful ++ [fe.1]
          sinkData :=
            match res.1 with
            | some records => if records = [] then st.sinkData else st.sinkData ++ records
            | none => st.sinkData }
      if cfg.enableCheckpointing then
        { stS with checkpointStore := some (insert fe.1 (stS.checkpointStore.getD ∅)) }
      else stS
    else
      { st with
        runFailedFiles := st.runFailedFiles + 1
        statusFailed := st.statusFailed ++ [fe.1] }
  let st2 := if 0 < res.2.1 then { st1 with totalCost := st1.totalCost + res.2.1 } else st1
  let st3 := { st2 with runTotalFiles := st2.runTotalFiles + 1 }
  match res.2.2.2 with
  | some u => { st3 with usageMetadataList := st3.usageMetadataList ++ [u] }
  | none => st3

/-- The submission loop of parallel process_directory (lines 343-358): files
whose canonical path is in the loaded checkpoint set are marked skipped, the
rest are submitted; the in-memory processed set never changes during the
loop, so the membership test is against the fixed loaded set `S`. -/
def parSkipPhase (S : Finset PathStr) (files : List (PathStr × FileEvent))
    (st : ExtractorState) : ExtractorState :=
  files.foldl (fun st fe =>
    if fe.1 ∈ S then { st with statusSkipped := st.statusSkipped ++ [fe.1] } else st) st

/-- BaseExtractor.process_directory in parallel mode (lines 328-397): reset,
early return on an empty catalog, load the checkpoint, mark checkpointed files
skipped at submission time, then collect the worker results of the dispatched
(non-checkpointed) files in submission order. -/
def processDirectoryPar (cfg : Config) (pricing : Pricing)
    (files : List (PathStr × FileEvent)) (st0 : ExtractorState) : ExtractorState :=
  if files = [] then resetRun st0
  else
    (files.filter (fun fe =>
        decide (fe.1 ∉ (loadCheckpoint cfg (resetRun st0)).processedFiles))).foldl
      (parCollect cfg pricing)
      (parSkipPhase (loadCheckpoint cfg (resetRun st0)).processedFiles files
        (loadCheckpoint cfg (resetRun st0)))

/-- Whether a file event leads process_file to a successful status. -/
def validateOk (cs : List Char) : Bool :=
  match validateJsonOutput cs with
  | .ok _ => true
  | .error _ => false

/-- A file event on which process_file succeeds: a Recognizer response without
error whose text survives validation. -/
def isSuccessEvent : FileEvent → Bool
  | .resp r => !r.error && validateOk r.text
  | _ => false

/-! ### Bookkeeping lemmas for the scheduler -/

/-- The combined multiset of all three end-of-run status lists. -/
def statusMultiset (st : ExtractorState) : Multiset PathStr :=
  (st.statusSuccessful : Multiset PathStr) + (st.statusFailed : Multiset PathStr) +
    (st.statusSkipped : Multiset PathStr)

theorem coe_append_single (l : List PathStr) (p : PathStr) :
    ((l ++ [p] : List PathStr) : Multiset PathStr) = (l : Multiset PathStr) + {p} := rfl

theorem coe_append_split (l1 l2 : List PathStr) :
    ((l1 ++ l2 : List PathStr) : Multiset PathStr) =
      (l1 : Multiset PathStr) + (l2 : Multiset PathStr) := rfl

theorem statusInsertMid (a b c : List PathStr) (p : PathStr) :
    ((a ++ (b ++ p :: c) : List PathStr) : Multiset PathStr) =
      ((a ++ (b ++ c) : List PathStr) : Multiset PathStr) + {p} := by
  show ((a : Multiset PathStr) + ((b : Multiset PathStr) + ({p} + (c : Multiset PathStr)))) =
    ((a : Multiset PathStr) + ((b : Multiset PathStr) + (c : Multiset PathStr))) + {p}
  abel

theorem statusInsertHead (a d : List PathStr) (p : PathStr) :
    ((a ++ p :: d : List PathStr) : Multiset PathStr) =
      ((a ++ d : List PathStr) : Multiset PathStr) + {p} := by
  show ((a : Multiset PathStr) + ({p} + (d : Multiset PathStr))) =
    ((a : Multiset PathStr) + (d : Multiset PathStr)) + {p}
  abel

theorem saveCheckpoint_statusSuccessful (cfg : Config) (st : ExtractorState) :
    (saveCheckpoint cfg st).statusSuccessful = st.statusSuccessful := by
  unfold saveCheckpoint
  split <;> rfl

theorem saveCheckpoint_statusFailed (cfg : Config) (st : ExtractorState) :
    (saveCheckpoint cfg st).statusFailed = st.statusFailed := by
  unfold saveCheckpoint
  split <;> rfl

theorem saveCheckpoint_statusSkipped (cfg : Config) (st : ExtractorState) :
    (saveCheckpoint cfg st).statusSkipped = st.statusSkipped := by
  unfold saveCheckpoint
  split <;> rfl

theorem loadCheckpoint_statusSuccessful (cfg : Config) (st : ExtractorState) :
    (loadCheckpoint cfg st).statusSuccessful = st.statusSuccessful := by
  unfold loadCheckpoint
  split
  · split <;> rfl
  · rfl

theorem loadCheckpoint_statusFailed (cfg : Config) (st : ExtractorState) :
    (loadCheckpoint cfg st).statusFailed = st.statusFailed := by
  unfold loadCheckpoint
  split
  · split <;> rfl
  · rfl

theorem loadCheckpoint_statusSkipped (cfg : Config) (st : ExtractorState) :
    (loadCheckpoint cfg st).statusSkipped = st.statusSkipped := by
  unfold loadCheckpoint
  split
  · split <;> rfl
  · rfl

theorem statusMultiset_loadCheckpoint (cfg : Config) (st : ExtractorState) :
    statusMultiset (loadCheckpoint cfg st) = statusMultiset st := by
  unfold statusMultiset
  rw [loadCheckpoint_statusSuccessful, loadCheckpoint_statusFailed, loadCheckpoint_statusSkipped]

theorem processFile_statusM (cfg : Config) (pricing : Pricing) (p : PathStr) (ev : FileEvent)
    (st : ExtractorState) :
    statusMultiset (processFile cfg pricing p ev st).1 = statusMultiset st + {p} := by
  cases ev with
  | readRaises =>
    simp [processFile, markFailed, statusMultiset]
    refine Multiset.ext.mpr fun x => ?_
      <;> simp only [Multiset.count_add, Multiset.count_singleton, Multiset.coe_count,
        List.count_append, List.count_cons, List.count_nil, Multiset.count_cons, beq_iff_eq]
      <;> split_ifs <;> first | omega | simp_all
  | readEmpty =>
    simp [processFile, markFailed, statusMultiset]
    refine Multiset.ext.mpr fun x => ?_
      <;> simp only [Multiset.count_add, Multiset.count_singleton, Multiset.coe_count,
        List.count_append, List.count_cons, List.count_nil, Multiset.count_cons, beq_iff_eq]
      <;> split_ifs <;> first | omega | simp_all
  | badKind =>
    simp [processFile, markFailed, statusMultiset]
    refine Multiset.ext.mpr fun x => ?_
      <;> simp only [Multiset.count_add, Multiset.count_singleton, Multiset.coe_count,
        List.count_append, List.count_cons, List.count_nil, Multiset.count_cons, beq_iff_eq]
      <;> split_ifs <;> first | omega | simp_all
  | resp r =>
    by_cases he : r.error
    · simp [processFile, he, markFailed, statusMultiset]
      refine Multiset.ext.mpr fun x => ?_
      <;> simp only [Multiset.count_add, Multiset.count_singleton, Multiset.coe_count,
        List.count_append, List.count_cons, List.count_nil, Multiset.count_cons, beq_iff_eq]
      <;> split_ifs <;> first | omega | simp_all
    · cases hv : validateJsonOutput r.text with
      | error e =>
        simp [processFile, he, hv, markFailed, statusMultiset]
        refine Multiset.ext.mpr fun x => ?_
      <;> simp only [Multiset.count_add, Multiset.count_singleton, Multiset.coe_count,
        List.count_append, List.count_cons, List.count_nil, Multiset.count_cons, beq_iff_eq]
      <;> split_ifs <;> first | omega | simp_all
      | ok records =>
        simp [processFile, he, hv, statusMultiset, saveCheckpoint_statusSuccessful,
          saveCheckpoint_statusFailed, saveCheckpoint_statusSkipped]
        refine Multiset.ext.mpr fun x => ?_
      <;> simp only [Multiset.count_add, Multiset.count_singleton, Multiset.coe_count,
        List.count_append, List.count_cons, List.count_nil, Multiset.count_cons, beq_iff_eq]
      <;> split_ifs <;> first | omega | simp_all

theorem seqStep_statusM (cfg : Config) (pricing : Pricing) (st : ExtractorState)
    (fe : PathStr × FileEvent) :
    statusMultiset (seqStep cfg pricing st fe) = statusMultiset st + {fe.1} := by
  unfold seqStep
  split
  · simp [statusMultiset]
    refine Multiset.ext.mpr fun x => ?_
      <;> simp only [Multiset.count_add, Multiset.count_singleton, Multiset.coe_count,
        List.count_append, List.count_cons, List.count_nil, Multiset.count_cons, beq_iff_eq]
      <;> split_ifs <;> first | omega | simp_all
  · exact processFile_statusM cfg pricing fe.1 fe.2 st

theorem add_single_cons (M : Multiset PathStr) (p : PathStr) (l : List PathStr) :
    M + {p} + (l : Multiset PathStr) = M + ((p :: l : List PathStr) : Multiset PathStr) := by
  show M + {p} + (l : Multiset PathStr) = M + ({p} + (l : Multiset PathStr))
  abel

theorem foldl_seqStep_statusM (cfg : Config) (pricing : Pricing)
    (files : List (PathStr × FileEvent)) : ∀ st : ExtractorState,
    statusMultiset (files.foldl (seqStep cfg pricing) st) =
      statusMultiset st + ((files.map Prod.fst : List PathStr) : Multiset PathStr) := by
  induction files with
  | nil => intro st; simp
  | cons fe fs ih =>
    intro st
    rw [List.foldl_cons, ih (seqStep cfg pricing st fe), seqStep_statusM, List.map_cons]
    exact add_single_cons _ _ _

theorem parCollect_statusM (cfg : Config) (pricing : Pricing) (st : ExtractorState)
    (fe : PathStr × FileEvent) :
    statusMultiset (parCollect cfg pricing st fe) = statusMultiset st + {fe.1} := by
  unfold parCollect
  rcases workerWrapper pricing fe.2 with ⟨recs, fc, ok, usage⟩
  by_cases hok : ok = true
  · by_cases hck : cfg.enableCheckpointing = true
    · cases usage <;> simp [hok, hck, statusMultiset] <;> split <;>
        (simp [statusMultiset]; refine Multiset.ext.mpr fun x => ?_
      <;> simp only [Multiset.count_add, Multiset.count_singleton, Multiset.coe_count,
        List.count_append, List.count_cons, List.count_nil, Multiset.count_cons, beq_iff_eq]
      <;> split_ifs <;> first | omega | simp_all)
    · cases usage <;> simp [hok, hck, statusMultiset] <;> split <;>
        (simp [statusMultiset]; refine Multiset.ext.mpr fun x => ?_
      <;> simp only [Multiset.count_add, Multiset.count_singleton, Multiset.coe_count,
        List.count_append, List.count_cons, List.count_nil, Multiset.count_cons, beq_iff_eq]
      <;> split_ifs <;> first | omega | simp_all)
  · cases usage <;> simp [hok, statusMultiset] <;> split <;>
      (simp [statusMultiset]; refine Multiset.ext.mpr fun x => ?_
      <;> simp only [Multiset.count_add, Multiset.count_singleton, Multiset.coe_count,
        List.count_append, List.count_cons, List.count_nil, Multiset.count_cons, beq_iff_eq]
      <;> split_ifs <;> first | omega | simp_all)

theorem foldl_parCollect_statusM (cfg : Config) (pricing : Pricing)
    (files : List (PathStr × FileEvent)) : ∀ st : ExtractorState,
    statusMultiset (files.foldl (parCollect cfg pricing) st) =
      statusMultiset st + ((files.map Prod.fst : List PathStr) : Multiset PathStr) := by
  induction files with
  | nil => intro st; simp
  | cons fe fs ih =>
    intro st
    rw [List.foldl_cons, ih (parCollect cfg pricing st fe), parCollect_statusM, List.map_cons]
    exact add_single_cons _ _ _

theorem skipFold_statusM (S : Finset PathStr) (files : List (PathStr × FileEvent)) :
    ∀ st : ExtractorState,
    statusMultiset (files.foldl (fun st fe =>
        if fe.1 ∈ S then { st with statusSkipped := st.statusSkipped ++ [fe.1] } else st) st) =
      statusMultiset st +
        (((files.filter (fun fe => decide (fe.1 ∈ S))).map Prod.fst : List PathStr) :
          Multiset PathStr) := by
  induction files with
  | nil => intro st; simp
  | cons fe fs ih =>
    intro st
    rw [List.foldl_cons]
    by_cases hm : fe.1 ∈ S
    · rw [if_pos hm, ih]
      have h1 : statusMultiset { st with statusSkipped := st.statusSkipped ++ [fe.1] } =
          statusMultiset st + {fe.1} := by
        simp [statusMultiset]
        refine Multiset.ext.mpr fun x => ?_
          <;> simp only [Multiset.count_add, Multiset.count_singleton, Multiset.coe_count,
            List.count_append, List.count_cons, List.count_nil, Multiset.count_cons, beq_iff_eq]
          <;> split_ifs <;> first | omega | simp_all
      rw [h1]
      rw [show (fe :: fs).filter (fun fe => decide (fe.1 ∈ S)) =
          fe :: fs.filter (fun fe => decide (fe.1 ∈ S)) from by simp [hm]]
      rw [List.map_cons]
      exact add_single_cons _ _ _
    · rw [if_neg hm, ih]
      simp [hm]

/-! ### File discovery (InputHandler.get_files_from_directory) -/

/-- One entry the glob enumeration yields: its path and whether it is a
regular file. -/
structure DirEntry : Type where
  path : PathStr
  isFile : Bool
deriving DecidableEq

/-- The final component of a path (after the last slash). -/
def lastComponent (cs : PathStr) : PathStr :=
  match pyRfind '/' cs with
  | some i => cs.drop (i + 1)
  | none => cs

/-- Model of pathlib suffix: the extension of the final component, from the
last dot on, empty when the dot is leading, trailing or absent. -/
def pathSuffix (cs : PathStr) : PathStr :=
  let nm := lastComponent cs
  match pyRfind '.' nm with
  | some i => if 0 < i ∧ i < nm.length - 1 then nm.drop i else []
  | none => []

/-- Lower-casing of a path suffix. -/
def toLowerStr (cs : PathStr) : PathStr := cs.map Char.toLower

/-- The supported extensions of src/handlers/input_handler.py, line 94. -/
def supportedExtensions : List PathStr :=
  [['.', 'j', 'p', 'g'], ['.', 'j', 'p', 'e', 'g'], ['.', 'p', 'n', 'g'],
   ['.', 'g', 'i', 'f'], ['.', 'b', 'm', 'p'], ['.', 't', 'i', 'f', 'f'],
   ['.', 'w', 'e', 'b', 'p'], ['.', 't', 'x', 't']]

/-- The error InputHandler.get_files_from_directory raises. -/
inductive DirErr : Type
  | notADirectory
deriving DecidableEq

/-- Model of InputHandler.get_files_from_directory (lines 77-103): raise
NotADirectoryError unless the root is a directory, then keep, in the order the
glob enumeration yields them, exactly the regular files whose lower-cased
suffix is supported.  The `recursive` flag only selects which enumeration the
OS produces, so the enumeration is the parameter. -/
def getFilesFromDirectory (isDir : Bool) (entries : List DirEntry) :
    Except DirErr (List DirEntry) :=
  if isDir then
    .ok (entries.filter (fun e =>
      e.isFile && decide (toLowerStr (pathSuffix e.path) ∈ supportedExtensions)))
  else .error .notADirectory

/-! ### Run-level status accounting -/

theorem statusM_card (st : ExtractorState) :
    (statusMultiset st).card =
      st.statusSuccessful.length + st.statusFailed.length + st.statusSkipped.length := by
  simp [statusMultiset]
  omega

theorem statusM_fresh (store : Option (Finset PathStr)) :
    statusMultiset (freshState store) = 0 := rfl

theorem parSkipPhase_def (S : Finset PathStr) (files : List (PathStr × FileEvent))
    (st : ExtractorState) :
    parSkipPhase S files st = files.foldl (fun st fe =>
      if fe.1 ∈ S then { st with statusSkipped := st.statusSkipped ++ [fe.1] } else st) st := rfl

theorem resetRun_fresh (store : Option (Finset PathStr)) :
    resetRun (freshState store) = freshState store := rfl

theorem statusMultiset_resetRun (st : ExtractorState) :
    statusMultiset (resetRun st) = statusMultiset st := rfl

theorem processDirectorySeq_statusM (cfg : Config) (pricing : Pricing)
    (files : List (PathStr × FileEvent)) (st0 : ExtractorState) :
    statusMultiset (processDirectorySeq cfg pricing files st0) =
      statusMultiset st0 + ((files.map Prod.fst : List PathStr) : Multiset PathStr) := by
  unfold processDirectorySeq
  by_cases hf : files = []
  · subst hf
    simp [statusMultiset_resetRun]
  · rw [if_neg hf, foldl_seqStep_statusM, statusMultiset_loadCheckpoint,
      statusMultiset_resetRun]

theorem filter_split_paths (q : PathStr × FileEvent → Bool)
    (files : List (PathStr × FileEvent)) :
    (((files.filter q).map Prod.fst : List PathStr) : Multiset PathStr) +
      (((files.filter (fun fe => !q fe)).map Prod.fst : List PathStr) : Multiset PathStr) =
      ((files.map Prod.fst : List PathStr) : Multiset PathStr) := by
  rw [← coe_append_split, ← List.map_append]
  rw [Multiset.coe_eq_coe]
  exact (List.filter_append_perm q files).map Prod.fst

theorem processDirectoryPar_statusM (cfg : Config) (pricing : Pricing)
    (files : List (PathStr × FileEvent)) (st0 : ExtractorState) :
    statusMultiset (processDirectoryPar cfg pricing files st0) =
      statusMultiset st0 + ((files.map Prod.fst : List PathStr) : Multiset PathStr) := by
  unfold processDirectoryPar
  by_cases hf : files = []
  · subst hf
    simp [statusMultiset_resetRun]
  · rw [if_neg hf, foldl_parCollect_statusM, parSkipPhase_def, skipFold_statusM,
      statusMultiset_loadCheckpoint, statusMultiset_resetRun]
    have hq : (files.filter fun fe =>
        decide (fe.1 ∉ (loadCheckpoint cfg (resetRun st0)).processedFiles)) =
        files.filter (fun fe =>
          !(decide (fe.1 ∈ (loadCheckpoint cfg (resetRun st0)).processedFiles))) := by
      apply List.filter_congr
      intro fe _
      simp
    rw [hq, add_assoc, filter_split_paths]

/-- The content of the spec's partition invariant for the three status lists
of a run over the given catalog. -/
def partitionInvariant (files : List (PathStr × FileEvent)) (st : ExtractorState) : Prop :=
  st.statusSuccessful.length + st.statusFailed.length + st.statusSkipped.length = files.length ∧
  ∀ pth : PathStr,
    (pth ∈ st.statusSuccessful → pth ∉ st.statusFailed ∧ pth ∉ st.statusSkipped) ∧
    (pth ∈ st.statusFailed → pth ∉ st.statusSkipped)

theorem partition_of_statusM (files : List (PathStr × FileEvent)) (st : ExtractorState)
    (hM : statusMultiset st = ((files.map Prod.fst : List PathStr) : Multiset PathStr))
    (hnd : (files.map Prod.fst).Nodup) : partitionInvariant files st := by
  have hcount : ∀ pth : PathStr,
      Multiset.count pth (st.statusSuccessful : Multiset PathStr) +
        Multiset.count pth (st.statusFailed : Multiset PathStr) +
        Multiset.count pth (st.statusSkipped : Multiset PathStr) ≤ 1 := by
    intro pth
    have h1 := congrArg (Multiset.count pth) hM
    simp only [statusMultiset, Multiset.count_add] at h1
    have h2 : Multiset.count pth ((files.map Prod.fst : List PathStr) : Multiset PathStr) ≤ 1 :=
      Multiset.nodup_iff_count_le_one.mp (Multiset.coe_nodup.mpr hnd) pth
    omega
  constructor
  · have h1 := congrArg Multiset.card hM
    rw [statusM_card] at h1
    simpa using h1
  · intro pth
    have hc := hcount pth
    have hmem : ∀ l : List PathStr, pth ∈ l →
        1 ≤ Multiset.count pth (l : Multiset PathStr) := by
      intro l hl
      exact Multiset.count_pos.mpr (Multiset.mem_coe.mpr hl)
    constructor
    · intro h1
      have hb1 := hmem _ h1
      constructor
      · intro h2
        have hb2 := hmem _ h2
        omega
      · intro h2
        have hb2 := hmem _ h2
        omega
    · intro h1
      have hb1 := hmem _ h1
      intro h2
      have hb2 := hmem _ h2
      omega

/-! ### Per-file characterization of the scheduler -/

theorem saveCheckpoint_processedFiles (cfg : Config) (st : ExtractorState) :
    (saveCheckpoint cfg st).processedFiles = st.processedFiles := by
  unfold saveCheckpoint
  split <;> rfl

theorem processFile_char (cfg : Config) (pricing : Pricing) (p : PathStr) (ev : FileEvent)
    (st : ExtractorState) :
    (processFile cfg pricing p ev st).1.statusSuccessful =
        (st.statusSuccessful ++ if isSuccessEvent ev then [p] else []) ∧
    (processFile cfg pricing p ev st).1.statusFailed =
        (st.statusFailed ++ if isSuccessEvent ev then [] else [p]) ∧
    (processFile cfg pricing p ev st).1.statusSkipped = st.statusSkipped ∧
    (processFile cfg pricing p ev st).1.processedFiles =
        (if isSuccessEvent ev then insert p st.processedFiles else st.processedFiles) := by
  cases ev with
  | readRaises => simp [processFile, markFailed, isSuccessEvent]
  | readEmpty => simp [processFile, markFailed, isSuccessEvent]
  | badKind => simp [processFile, markFailed, isSuccessEvent]
  | resp r =>
    by_cases he : r.error
    · simp [processFile, he, markFailed, isSuccessEvent]
    · cases hv : validateJsonOutput r.text with
      | error e =>
        simp [processFile, he, hv, markFailed, isSuccessEvent, validateOk]
      | ok records =>
        simp [processFile, he, hv, isSuccessEvent, validateOk,
          saveCheckpoint_statusSuccessful, saveCheckpoint_statusFailed,
          saveCheckpoint_statusSkipped, saveCheckpoint_processedFiles]

theorem workerWrapper_ok (pricing : Pricing) (ev : FileEvent) :
    (workerWrapper pricing ev).2.2.1 = isSuccessEvent ev := by
  cases ev with
  | readRaises => rfl
  | readEmpty => rfl
  | badKind => rfl
  | resp r =>
    by_cases he : r.error
    · simp [workerWrapper, he, isSuccessEvent]
    · cases hv : validateJsonOutput r.text with
      | error e => simp [workerWrapper, he, hv, isSuccessEvent, validateOk]
      | ok records => simp [workerWrapper, he, hv, isSuccessEvent, validateOk]

theorem parCollect_char (cfg : Config) (pricing : Pricing) (st : ExtractorState)
    (fe : PathStr × FileEvent) :
    (parCollect cfg pricing st fe).statusSuccessful =
        (st.statusSuccessful ++ if isSuccessEvent fe.2 then [fe.1] else []) ∧
    (parCollect cfg pricing st fe).statusFailed =
        (st.statusFailed ++ if isSuccessEvent fe.2 then [] else [fe.1]) ∧
    (parCollect cfg pricing st fe).statusSkipped = st.statusSkipped := by
  unfold parCollect
  have hok := workerWrapper_ok pricing fe.2
  rcases hw : workerWrapper pricing fe.2 with ⟨recs, fc, ok, usage⟩
  rw [hw] at hok
  simp only at hok
  by_cases hs : ok = true
  · rw [hs] at hok
    by_cases hck : cfg.enableCheckpointing = true
    · cases usage <;> simp [hs, hck, ← hok] <;> split <;> simp
    · cases usage <;> simp [hs, hck, ← hok] <;> split <;> simp
  · have hs2 : ok = false := by
      cases ok
      · rfl
      · exact absurd rfl hs
    rw [hs2] at hok
    cases usage <;> simp [hs2, ← hok] <;> split <;> simp

theorem seqStep_processed_mono (cfg : Config) (pricing : Pricing) (st : ExtractorState)
    (fe : PathStr × FileEvent) :
    st.processedFiles ⊆ (seqStep cfg pricing st fe).processedFiles := by
  unfold seqStep
  split
  · exact fun x hx => hx
  · rw [(processFile_char cfg pricing fe.1 fe.2 st).2.2.2]
    split
    · exact Finset.subset_insert _ _
    · exact fun x hx => hx

theorem foldl_seqStep_processed_mono (cfg : Config) (pricing : Pricing)
    (files : List (PathStr × FileEvent)) : ∀ st : ExtractorState,
    st.processedFiles ⊆ (files.foldl (seqStep cfg pricing) st).processedFiles := by
  induction files with
  | nil => intro st; exact fun x hx => hx
  | cons fe fs ih =>
    intro st
    rw [List.foldl_cons]
    exact subset_trans (seqStep_processed_mono cfg pricing st fe) (ih _)

theorem foldl_seqStep_char (cfg : Config) (pricing : Pricing)
    (files : List (PathStr × FileEvent)) : ∀ st : ExtractorState,
    (∀ fe ∈ files, fe.1 ∉ st.processedFiles) → (files.map Prod.fst).Nodup →
    (files.foldl (seqStep cfg pricing) st).statusSuccessful =
        st.statusSuccessful ++ (files.filter (fun fe => isSuccessEvent fe.2)).map Prod.fst ∧
    (files.foldl (seqStep cfg pricing) st).statusFailed =
        st.statusFailed ++ (files.filter (fun fe => !isSuccessEvent fe.2)).map Prod.fst ∧
    (files.foldl (seqStep cfg pricing) st).statusSkipped = st.statusSkipped ∧
    (files.foldl (seqStep cfg pricing) st).processedFiles ⊆
        st.processedFiles ∪ (files.map Prod.fst).toFinset := by
  induction files with
  | nil =>
    intro st _ _
    refine ⟨by simp, by simp, rfl, ?_⟩
    simp
  | cons fe fs ih =>
    intro st hmem hnd
    have hfe : fe.1 ∉ st.processedFiles := hmem fe (by simp)
    have hstep : seqStep cfg pricing st fe = (processFile cfg pricing fe.1 fe.2 st).1 := by
      unfold seqStep
      rw [if_neg hfe]
    obtain ⟨hcs, hcf, hck, hcp⟩ := processFile_char cfg pricing fe.1 fe.2 st
    have hfs_ne : fe.1 ∉ fs.map Prod.fst := by
      have := hnd
      simp only [List.map_cons, List.nodup_cons] at this
      exact this.1
    have hmem2 : ∀ fe2 ∈ fs, fe2.1 ∉ (seqStep cfg pricing st fe).processedFiles := by
      intro fe2 h2
      rw [hstep, hcp]
      have hne : fe2.1 ≠ fe.1 := by
        intro hq
        exact hfs_ne (hq ▸ List.mem_map_of_mem Prod.fst h2)
      have hst : fe2.1 ∉ st.processedFiles := hmem fe2 (by simp [h2])
      split
      · simp [Finset.mem_insert, hne, hst]
      · exact hst
    have hnd2 : (fs.map Prod.fst).Nodup := by
      simp only [List.map_cons, List.nodup_cons] at hnd
      exact hnd.2
    obtain ⟨ih1, ih2, ih3, ih4⟩ := ih (seqStep cfg pricing st fe) hmem2 hnd2
    rw [List.foldl_cons] at *
    refine ⟨?_, ?_, ?_, ?_⟩
    · rw [ih1, hstep, hcs]
      by_cases hs : isSuccessEvent fe.2 = true <;>
        simp [hs, List.filter_cons]
    · rw [ih2, hstep, hcf]
      by_cases hs : isSuccessEvent fe.2 = true <;>
        simp [hs, List.filter_cons]
    · rw [ih3, hstep, hck]
    · refine subset_trans ih4 ?_
      rw [hstep, hcp]
      intro x hx
      simp only [Finset.mem_union, List.toFinset_cons, Finset.mem_insert] at hx ⊢
      simp only [List.map_cons, List.toFinset_cons, Finset.mem_insert]
      split at hx
      · rcases hx with hx | hx
        · rcases Finset.mem_insert.mp hx with hx | hx
          · exact Or.inr (Or.inl hx)
          · exact Or.inl hx
        · exact Or.inr (Or.inr hx)
      · rcases hx with hx | hx
        · exact Or.inl hx
        · exact Or.inr (Or.inr hx)

theorem skipFold_id (S : Finset PathStr) (files : List (PathStr × FileEvent)) :
    ∀ st : ExtractorState, (∀ fe ∈ files, fe.1 ∉ S) →
    files.foldl (fun st fe =>
      if fe.1 ∈ S then { st with statusSkipped := st.statusSkipped ++ [fe.1] } else st) st = st := by
  induction files with
  | nil => intro st _; rfl
  | cons fe fs ih =>
    intro st h
    rw [List.foldl_cons, if_neg (h fe (by simp))]
    exact ih st (fun fe2 h2 => h fe2 (by simp [h2]))

theorem foldl_parCollect_char (cfg : Config) (pricing : Pricing)
    (files : List (PathStr × FileEvent)) : ∀ st : ExtractorState,
    (files.foldl (parCollect cfg pricing) st).statusSuccessful =
        st.statusSuccessful ++ (files.filter (fun fe => isSuccessEvent fe.2)).map Prod.fst ∧
    (files.foldl (parCollect cfg pricing) st).statusFailed =
        st.statusFailed ++ (files.filter (fun fe => !isSuccessEvent fe.2)).map Prod.fst ∧
    (files.foldl (parCollect cfg pricing) st).statusSkipped = st.statusSkipped := by
  induction files with
  | nil =>
    intro st
    exact ⟨by simp, by simp, rfl⟩
  | cons fe fs ih =>
    intro st
    obtain ⟨hcs, hcf, hck⟩ := parCollect_char cfg pricing st fe
    obtain ⟨ih1, ih2, ih3⟩ := ih (parCollect cfg pricing st fe)
    rw [List.foldl_cons] at *
    refine ⟨?_, ?_, ?_⟩
    · rw [ih1, hcs]
      by_cases hs : isSuccessEvent fe.2 = true <;>
        simp [hs, List.filter_cons]
    · rw [ih2, hcf]
      by_cases hs : isSuccessEvent fe.2 = true <;>
        simp [hs, List.filter_cons]
    · rw [ih3, hck]

/-! ### Checkpoint bookkeeping for resume runs -/

/-- The checkpoint file content either mirrors the in-memory processed set
exactly (some save has happened), or no save has happened yet and the
in-memory set is still empty. -/
def checkpointInv (st : ExtractorState) : Prop :=
  st.checkpointStore = some st.processedFiles ∨
    (st.checkpointStore = none ∧ st.processedFiles = ∅)

theorem processFile_store (cfg : Config) (pricing : Pricing) (p : PathStr) (ev : FileEvent)
    (st : ExtractorState) (hc : cfg.enableCheckpointing = true) :
    (processFile cfg pricing p ev st).1.checkpointStore =
      (if isSuccessEvent ev then some (insert p st.processedFiles)
       else st.checkpointStore) := by
  cases ev with
  | readRaises => simp [processFile, markFailed, isSuccessEvent]
  | readEmpty => simp [processFile, markFailed, isSuccessEvent]
  | badKind => simp [processFile, markFailed, isSuccessEvent]
  | resp r =>
    by_cases he : r.error
    · simp [processFile, he, markFailed, isSuccessEvent]
    · cases hv : validateJsonOutput r.text with
      | error e => simp [processFile, he, hv, markFailed, isSuccessEvent, validateOk]
      | ok records => simp [processFile, he, hv, isSuccessEvent, validateOk, saveCheckpoint, hc]

theorem seqStep_checkpointInv (cfg : Config) (pricing : Pricing) (st : ExtractorState)
    (fe : PathStr × FileEvent) (hc : cfg.enableCheckpointing = true)
    (hinv : checkpointInv st) : checkpointInv (seqStep cfg pricing st fe) := by
  unfold seqStep
  split
  · exact hinv
  · unfold checkpointInv
    rw [processFile_store cfg pricing fe.1 fe.2 st hc,
      (processFile_char cfg pricing fe.1 fe.2 st).2.2.2]
    by_cases hs : isSuccessEvent fe.2 = true
    · rw [if_pos hs, if_pos hs]
      exact Or.inl rfl
    · rw [if_neg hs, if_neg hs]
      exact hinv

theorem foldl_seqStep_checkpointInv (cfg : Config) (pricing : Pricing)
    (files : List (PathStr × FileEvent)) (hc : cfg.enableCheckpointing = true) :
    ∀ st : ExtractorState, checkpointInv st →
    checkpointInv (files.foldl (seqStep cfg pricing) st) := by
  induction files with
  | nil => intro st h; exact h
  | cons fe fs ih =>
    intro st h
    rw [List.foldl_cons]
    exact ih _ (seqStep_checkpointInv cfg pricing st fe hc h)

theorem foldl_seqStep_all_processed (cfg : Config) (pricing : Pricing)
    (files : List (PathStr × FileEvent)) :
    ∀ st : ExtractorState, (∀ fe ∈ files, isSuccessEvent fe.2 = true) →
    ∀ fe ∈ files, fe.1 ∈ (files.foldl (seqStep cfg pricing) st).processedFiles := by
  induction files with
  | nil => intro st _ fe h; cases h
  | cons fe0 fs ih =>
    intro st hall fe hfe
    rw [List.foldl_cons]
    rcases List.mem_cons.mp hfe with rfl | hfe'
    · have hsub := foldl_seqStep_processed_mono cfg pricing fs (seqStep cfg pricing st fe)
      apply hsub
      unfold seqStep
      split
      · assumption
      · rw [(processFile_char cfg pricing fe.1 fe.2 st).2.2.2,
          if_pos (hall fe (by simp))]
        exact Finset.mem_insert_self _ _
    · exact ih (seqStep cfg pricing st fe0) (fun x hx => hall x (by simp [hx])) fe hfe'

theorem foldl_seqStep_all_skip (cfg : Config) (pricing : Pricing)
    (files : List (PathStr × FileEvent)) :
    ∀ st : ExtractorState, (∀ fe ∈ files, fe.1 ∈ st.processedFiles) →
    (files.foldl (seqStep cfg pricing) st).statusSkipped =
        st.statusSkipped ++ files.map Prod.fst ∧
    (files.foldl (seqStep cfg pricing) st).statusSuccessful = st.statusSuccessful ∧
    (files.foldl (seqStep cfg pricing) st).statusFailed = st.statusFailed := by
  induction files with
  | nil =>
    intro st _
    exact ⟨by simp, rfl, rfl⟩
  | cons fe fs ih =>
    intro st hall
    have hfe : fe.1 ∈ st.processedFiles := hall fe (by simp)
    have hstep : seqStep cfg pricing st fe =
        { st with statusSkipped := st.statusSkipped ++ [fe.1] } := by
      unfold seqStep
      rw [if_pos hfe]
    rw [List.foldl_cons, hstep]
    obtain ⟨ih1, ih2, ih3⟩ := ih { st with statusSkipped := st.statusSkipped ++ [fe.1] }
      (fun fe2 h2 => hall fe2 (by simp [h2]))
    rw [ih1, ih2, ih3]
    refine ⟨by simp, rfl, rfl⟩

theorem loadCheckpoint_not_resume (cfg : Config) (st : ExtractorState)
    (hres : cfg.resumeFromCheckpoint = false) : loadCheckpoint cfg st = st := by
  unfold loadCheckpoint
  simp [hres]

theorem loadCheckpoint_none (cfg : Config) (st : ExtractorState)
    (h : st.checkpointStore = none) : loadCheckpoint cfg st = st := by
  unfold loadCheckpoint
  by_cases hr : cfg.resumeFromCheckpoint = true <;> simp [hr, h]

theorem loadCheckpoint_some (cfg : Config) (st : ExtractorState) (T : Finset PathStr)
    (hr : cfg.resumeFromCheckpoint = true) (h : st.checkpointStore = some T) :
    loadCheckpoint cfg st = { st with processedFiles := T } := by
  unfold loadCheckpoint
  simp [hr, h]

theorem seqStep_appends (cfg : Config) (pricing : Pricing) (st : ExtractorState)
    (fe : PathStr × FileEvent) :
    (∃ t, (seqStep cfg pricing st fe).statusSuccessful = st.statusSuccessful ++ t) ∧
    (∃ t, (seqStep cfg pricing st fe).statusFailed = st.statusFailed ++ t) ∧
    (∃ t, (seqStep cfg pricing st fe).statusSkipped = st.statusSkipped ++ t) := by
  unfold seqStep
  split
  · exact ⟨⟨[], by simp⟩, ⟨[], by simp⟩, ⟨[fe.1], rfl⟩⟩
  · obtain ⟨h1, h2, h3, _⟩ := processFile_char cfg pricing fe.1 fe.2 st
    exact ⟨⟨_, h1⟩, ⟨_, h2⟩, ⟨[], by simp [h3]⟩⟩

theorem foldl_seqStep_appends (cfg : Config) (pricing : Pricing)
    (files : List (PathStr × FileEvent)) : ∀ st : ExtractorState,
    (∃ t, (files.foldl (seqStep cfg pricing) st).statusSuccessful =
        st.statusSuccessful ++ t) ∧
    (∃ t, (files.foldl (seqStep cfg pricing) st).statusFailed = st.statusFailed ++ t) ∧
    (∃ t, (files.foldl (seqStep cfg pricing) st).statusSkipped = st.statusSkipped ++ t) := by
  induction files with
  | nil =>
    intro st
    exact ⟨⟨[], by simp⟩, ⟨[], by simp⟩, ⟨[], by simp⟩⟩
  | cons fe fs ih =>
    intro st
    rw [List.foldl_cons]
    obtain ⟨⟨u1, hu1⟩, ⟨u2, hu2⟩, ⟨u3, hu3⟩⟩ := seqStep_appends cfg pricing st fe
    obtain ⟨⟨v1, hv1⟩, ⟨v2, hv2⟩, ⟨v3, hv3⟩⟩ := ih (seqStep cfg pricing st fe)
    refine ⟨⟨u1 ++ v1, ?_⟩, ⟨u2 ++ v2, ?_⟩, ⟨u3 ++ v3, ?_⟩⟩
    · rw [hv1, hu1, List.append_assoc]
    · rw [hv2, hu2, List.append_assoc]
    · rw [hv3, hu3, List.append_assoc]

theorem mem_map_fst_filter (q : PathStr × FileEvent → Bool)
    (files : List (PathStr × FileEvent)) (hnd : (files.map Prod.fst).Nodup)
    (fe : PathStr × FileEvent) (hfe : fe ∈ files) :
    fe.1 ∈ (files.filter q).map Prod.fst ↔ q fe = true := by
  constructor
  · intro h
    obtain ⟨fe2, hfe2, heq⟩ := List.mem_map.mp h
    have hmem2 : fe2 ∈ files := List.mem_of_mem_filter hfe2
    have hq2 : q fe2 = true := List.of_mem_filter hfe2
    have : fe2 = fe := List.inj_on_of_nodup_map hnd hmem2 hfe heq
    rwa [← this]
  · intro hq
    exact List.mem_map_of_mem Prod.fst (List.mem_filter.mpr ⟨hfe, hq⟩)

theorem filter_not_mem_empty (files : List (PathStr × FileEvent)) :
    files.filter (fun fe => decide (fe.1 ∉ (∅ : Finset PathStr))) = files := by
  apply List.filter_eq_self.mpr
  intro fe _
  simp

/-! ### Claim theorems -/

/-- C1: the spec requires cost aggregation to be identical in sequential and
parallel mode, and in particular that a failed call carrying usage metadata
still adds its priced cost to the running total in parallel mode.  The code
violates this: on the same one-file catalog whose Recognizer call fails with
usage metadata of one million prompt tokens (input rate 1 per million),
sequential mode accumulates total cost 1 (base_extractor.py lines 215-216)
while the parallel worker hardcodes cost 0 for the failed call
(base_extractor.py line 503), so the parallel total stays 0; both modes do
record the usage metadata itself. -/
theorem claim_C1_parallel_drops_priced_cost_of_failed_call :
    (processDirectorySeq ⟨true, false, false⟩ ⟨1, 2, 3⟩
        [(['a'], FileEvent.resp ⟨[], some ⟨1000000, 0, 1000000, false, 0, 0, false⟩, true⟩)]
        (freshState none)).totalCost = 1 ∧
    (processDirectoryPar ⟨true, false, false⟩ ⟨1, 2, 3⟩
        [(['a'], FileEvent.resp ⟨[], some ⟨1000000, 0, 1000000, false, 0, 0, false⟩, true⟩)]
        (freshState none)).totalCost = 0 ∧
    (processDirectorySeq ⟨true, false, false⟩ ⟨1, 2, 3⟩
        [(['a'], FileEvent.resp ⟨[], some ⟨1000000, 0, 1000000, false, 0, 0, false⟩, true⟩)]
        (freshState none)).usageMetadataList =
      [⟨1000000, 0, 1000000, false, 0, 0, false⟩] ∧
    (processDirectoryPar ⟨true, false, false⟩ ⟨1, 2, 3⟩
        [(['a'], FileEvent.resp ⟨[], some ⟨1000000, 0, 1000000, false, 0, 0, false⟩, true⟩)]
        (freshState none)).usageMetadataList =
      [⟨1000000, 0, 1000000, false, 0, 0, false⟩] := by
  refine ⟨?_, by decide, by decide, by decide⟩
  simp [processDirectorySeq, resetRun, seqStep, processFile, markFailed, loadCheckpoint,
    freshState, calcAndLogCost, callCost]

/-- C2: on a freshly constructed extractor, the three status lists partition
the discovered catalog in both sequential and parallel mode: the lengths add
up to the number of discovered files and no path lands in two lists. -/
theorem claim_C2_status_lists_partition (cfg : Config) (pricing : Pricing)
    (files : List (PathStr × FileEvent)) (store : Option (Finset PathStr))
    (hnd : (files.map Prod.fst).Nodup) :
    partitionInvariant files (processDirectorySeq cfg pricing files (freshState store)) ∧
    partitionInvariant files (processDirectoryPar cfg pricing files (freshState store)) := by
  constructor
  · apply partition_of_statusM
    · rw [processDirectorySeq_statusM, statusM_fresh, zero_add]
    · exact hnd
  · apply partition_of_statusM
    · rw [processDirectoryPar_statusM, statusM_fresh, zero_add]
    · exact hnd

/-- C2 witness: the partition invariant at a concrete two-file catalog. -/
theorem claim_C2_status_lists_partition_witness :
    (([(['a'], FileEvent.readRaises),
       (['b'], FileEvent.resp ⟨[], none, false⟩)].map Prod.fst).Nodup) ∧
    (partitionInvariant
        [(['a'], FileEvent.readRaises), (['b'], FileEvent.resp ⟨[], none, false⟩)]
        (processDirectorySeq ⟨true, false, false⟩ ⟨1, 1, 1⟩
          [(['a'], FileEvent.readRaises), (['b'], FileEvent.resp ⟨[], none, false⟩)]
          (freshState none)) ∧
     partitionInvariant
        [(['a'], FileEvent.readRaises), (['b'], FileEvent.resp ⟨[], none, false⟩)]
        (processDirectoryPar ⟨true, false, false⟩ ⟨1, 1, 1⟩
          [(['a'], FileEvent.readRaises), (['b'], FileEvent.resp ⟨[], none, false⟩)]
          (freshState none))) :=
  ⟨by decide, claim_C2_status_lists_partition _ _ _ _ (by decide)⟩

/-- C3 counterexample: the claim quantifies over arbitrary surrounding text,
but when the text before the embedded array contains a `[`, the repair cuts
at that earlier bracket and parsing fails.  Here the serialized empty array
`[]` is preceded by text containing `[1]`, and validate_json_output raises
JSONDecodeError instead of returning the records of the array. -/
theorem claim_C3_counterexample :
    validateJsonOutput
        (['s', 'e', 'e', ' ', '[', '1', ']', ' ', 'n', 'o', 't', 'e', ' '] ++ dumps []) =
      .error .jsonDecodeError ∧
    validateJsonOutput
        (['s', 'e', 'e', ' ', '[', '1', ']', ' ', 'n', 'o', 't', 'e', ' '] ++ dumps []) ≠
      .ok [] := by
  decide

/-- C3 (amended): for every JSON array of records whose objects have pairwise
distinct keys, and every surrounding text whose part before the array contains
no `[` and whose part after contains no `]` (code fences included),
validate_json_output recovers exactly the records of the array.  (With a
repeated key inside one object, json.loads keeps only the last value, so the
recovered records could not equal the original ones.) -/
theorem claim_C3_validate_recovers_embedded_array (A : List RecordJ) (p s : List Char)
    (hp : '[' ∉ p) (hs : ']' ∉ s) (hA : ∀ r ∈ A, (r.map Prod.fst).Nodup) :
    validateJsonOutput (p ++ dumps A ++ s) = .ok A := by
  have hne : p ++ dumps A ++ s ≠ [] := by
    intro h
    rcases List.append_eq_nil.mp h with ⟨h1, _⟩
    rcases List.append_eq_nil.mp h1 with ⟨_, h2⟩
    exact dumps_ne_nil A h2
  unfold validateJsonOutput
  rw [if_neg hne]
  obtain ⟨p1, s1, he, hp1, hs1⟩ := stripFences_decomp A p s hp hs
  rw [he]
  simp only [cutToBracketStart_decomp A p1 s1 hp1, cutToBracketEnd_decomp A s1 hs1,
    loads_dumps A hA]

/-- C3 witness: a fence-wrapped one-record array is recovered exactly. -/
theorem claim_C3_validate_recovers_embedded_array_witness :
    ('[' ∉ fenceJson ++ ['\n']) ∧ (']' ∉ '\n' :: fence) ∧
    (∀ r ∈ [[(['a'], Scalar.int 1)]], (r.map Prod.fst).Nodup) ∧
    validateJsonOutput ((fenceJson ++ ['\n']) ++ dumps [[(['a'], Scalar.int 1)]] ++
        ('\n' :: fence)) = .ok [[(['a'], Scalar.int 1)]] :=
  ⟨by decide, by decide, by decide,
    claim_C3_validate_recovers_embedded_array [[(['a'], Scalar.int 1)]]
      (fenceJson ++ ['\n']) ('\n' :: fence) (by decide) (by decide) (by decide)⟩

/-- C4: the spec says a raw text holding a single JSON object is wrapped into
a one-element sequence, and the code even carries the wrapping branch
(llm_client.py lines 322-324) — but that branch is unreachable: the repair
first demands a `[`, so on the object text consisting of an open brace, the
quoted key a, a colon, the digit 1 and a close brace, validate_json_output
raises JSONDecodeError instead of returning the wrapped object. -/
theorem claim_C4_lone_object_raises_instead_of_wrapping :
    validateJsonOutput ['{', qc, 'a', qc, ':', ' ', '1', '}'] = .error .jsonDecodeError ∧
    validateJsonOutput ['{', qc, 'a', qc, ':', ' ', '1', '}'] ≠
      .ok [[(['a'], Scalar.int 1)]] := by
  decide

/-- C7: the per-call cost is prompt/1e6 times the input rate plus output/1e6
times the output rate plus, exactly when thinking is enabled, thinking/1e6
times the thinking rate; and the thinking token count recorded by
_generate_content is max(0, total - prompt - candidates). -/
theorem claim_C7_cost_formula (pricing : Pricing) (u : Usage)
    (budget promptT candT totalT : Nat) :
    (calcAndLogCost true pricing (some u)).1 =
      (u.promptTokenCount : ℚ) / 1000000 * pricing.inputCostPerMillionTokens +
      (u.candidatesTokenCount : ℚ) / 1000000 * pricing.outputCostPerMillionTokens +
      (if u.thinkingEnabled then
        (u.thinkingTokensUsed : ℚ) / 1000000 * pricing.thinkingCostPerMillionTokens
       else 0) ∧
    ((mkUsageFromApi true budget promptT candT totalT).thinkingTokensUsed : Int) =
      max 0 ((totalT : Int) - (promptT : Int) - (candT : Int)) := by
  constructor
  · by_cases ht : u.thinkingEnabled = true
    · by_cases h0 : u.thinkingTokensUsed = 0
      · simp [calcAndLogCost, callCost, ht, h0]
      · simp [calcAndLogCost, callCost, ht, h0, Nat.pos_of_ne_zero h0]
    · simp [calcAndLogCost, callCost, ht]
  · simp [mkUsageFromApi, derivedThinkingTokens]
    omega

/-- C8 counterexample: discovery preserves the order of the underlying glob
enumeration and does not sort, so two enumerations of the same two files (a
permutation of one another, as the OS may yield across runs) produce
different sequences — the claimed stable, reproducible order does not hold. -/
theorem claim_C8_counterexample :
    List.Perm
      [DirEntry.mk ['b', '.', 't', 'x', 't'] true, DirEntry.mk ['a', '.', 't', 'x', 't'] true]
      [DirEntry.mk ['a', '.', 't', 'x', 't'] true, DirEntry.mk ['b', '.', 't', 'x', 't'] true] ∧
    getFilesFromDirectory true
        [DirEntry.mk ['b', '.', 't', 'x', 't'] true, DirEntry.mk ['a', '.', 't', 'x', 't'] true] ≠
      getFilesFromDirectory true
        [DirEntry.mk ['a', '.', 't', 'x', 't'] true, DirEntry.mk ['b', '.', 't', 'x', 't'] true] := by
  constructor
  · decide
  · decide

/-- C8 (amended): discovery raises NotADirectory when the root is not a
directory, and otherwise returns exactly the regular files whose lower-cased
pathlib suffix is in the supported set, in the (arbitrary, unsorted) order of
the underlying glob enumeration. -/
theorem claim_C8_discovery_filters_in_enumeration_order (entries : List DirEntry) :
    getFilesFromDirectory false entries = .error .notADirectory ∧
    ∃ l, getFilesFromDirectory true entries = .ok l ∧ l.Sublist entries ∧
      ∀ e : DirEntry, e ∈ l ↔
        (e ∈ entries ∧ e.isFile = true ∧
          toLowerStr (pathSuffix e.path) ∈ supportedExtensions) := by
  refine ⟨rfl, _, rfl, List.filter_sublist entries, ?_⟩
  intro e
  rw [List.mem_filter]
  simp [and_assoc]

/-- C9: validate_json_output maps the empty response string to an empty record
list instead of failing, and a file whose Recognizer response text is empty is
counted successful with zero records reaching the sink. -/
theorem claim_C9_empty_text_counts_successful :
    validateJsonOutput [] = .ok [] ∧
    (processDirectorySeq ⟨false, false, false⟩ ⟨0, 0, 0⟩
        [(['a'], FileEvent.resp ⟨[], none, false⟩)] (freshState none)).statusSuccessful =
      [['a']] ∧
    (processDirectorySeq ⟨false, false, false⟩ ⟨0, 0, 0⟩
        [(['a'], FileEvent.resp ⟨[], none, false⟩)] (freshState none)).runSuccessfulFiles = 1 ∧
    (processDirectorySeq ⟨false, false, false⟩ ⟨0, 0, 0⟩
        [(['a'], FileEvent.resp ⟨[], none, false⟩)] (freshState none)).sinkData = [] := by
  refine ⟨by decide, by decide, by decide, by decide⟩

/-- C5 counterexample: only successfully processed files are checkpointed, so
after a first run in which the single file failed (Recognizer error), the
second resume run does not skip it: it is dispatched and fails again, and the
skipped list stays empty — not every discovered file lands in skipped. -/
theorem claim_C5_counterexample :
    (processDirectorySeq ⟨true, true, true⟩ ⟨1, 1, 1⟩
        [(['a'], FileEvent.resp ⟨[], none, true⟩)]
        (freshState
          ((processDirectorySeq ⟨true, true, true⟩ ⟨1, 1, 1⟩
            [(['a'], FileEvent.resp ⟨[], none, true⟩)]
            (freshState none)).checkpointStore))).statusSkipped = [] ∧
    (processDirectorySeq ⟨true, true, true⟩ ⟨1, 1, 1⟩
        [(['a'], FileEvent.resp ⟨[], none, true⟩)]
        (freshState
          ((processDirectorySeq ⟨true, true, true⟩ ⟨1, 1, 1⟩
            [(['a'], FileEvent.resp ⟨[], none, true⟩)]
            (freshState none)).checkpointStore))).statusFailed = [['a']] := by
  refine ⟨by decide, by decide⟩

/-- C5 (amended): with checkpointing and resume enabled, if every file of the
first run succeeds, then a second run over the unchanged catalog, loading the
checkpoint the first run wrote, dispatches nothing: every file lands in the
skipped list in catalog order and the successful and failed lists stay empty.
Files that failed in the first run are not checkpointed and would be
dispatched again. -/
theorem claim_C5_resume_skips_all_after_fully_successful_run (cfg : Config)
    (pricing : Pricing) (files : List (PathStr × FileEvent))
    (hck : cfg.enableCheckpointing = true) (hres : cfg.resumeFromCheckpoint = true)
    (hne : files ≠ []) (hall : ∀ fe ∈ files, isSuccessEvent fe.2 = true) :
    (processDirectorySeq cfg pricing files
        (freshState
          ((processDirectorySeq cfg pricing files (freshState none)).checkpointStore))).statusSkipped
      = files.map Prod.fst ∧
    (processDirectorySeq cfg pricing files
        (freshState
          ((processDirectorySeq cfg pricing files (freshState none)).checkpointStore))).statusSuccessful
      = [] ∧
    (processDirectorySeq cfg pricing files
        (freshState
          ((processDirectorySeq cfg pricing files (freshState none)).checkpointStore))).statusFailed
      = [] := by
  have hrun : ∀ st0 : ExtractorState, processDirectorySeq cfg pricing files st0 =
      files.foldl (seqStep cfg pricing) (loadCheckpoint cfg (resetRun st0)) := by
    intro st0
    unfold processDirectorySeq
    rw [if_neg hne]
  have h1 : processDirectorySeq cfg pricing files (freshState none) =
      files.foldl (seqStep cfg pricing) (freshState none) := by
    rw [hrun (freshState none), resetRun_fresh, loadCheckpoint_none cfg (freshState none) rfl]
  have hinv : checkpointInv (files.foldl (seqStep cfg pricing) (freshState none)) :=
    foldl_seqStep_checkpointInv cfg pricing files hck (freshState none) (Or.inr ⟨rfl, rfl⟩)
  have hmemall : ∀ fe ∈ files,
      fe.1 ∈ (files.foldl (seqStep cfg pricing) (freshState none)).processedFiles :=
    foldl_seqStep_all_processed cfg pricing files (freshState none) hall
  obtain ⟨fe0, hfe0⟩ : ∃ fe0, fe0 ∈ files := by
    cases files with
    | nil => exact absurd rfl hne
    | cons a l => exact ⟨a, by simp⟩
  have hstore : (files.foldl (seqStep cfg pricing) (freshState none)).checkpointStore =
      some (files.foldl (seqStep cfg pricing) (freshState none)).processedFiles := by
    rcases hinv with h | ⟨_, h2⟩
    · exact h
    · exfalso
      have hm := hmemall fe0 hfe0
      rw [h2] at hm
      exact absurd hm (Finset.not_mem_empty _)
  rw [h1]
  have h2 : processDirectorySeq cfg pricing files
      (freshState ((files.foldl (seqStep cfg pricing) (freshState none)).checkpointStore)) =
      files.foldl (seqStep cfg pricing)
        { freshState ((files.foldl (seqStep cfg pricing) (freshState none)).checkpointStore)
          with processedFiles :=
            (files.foldl (seqStep cfg pricing) (freshState none)).processedFiles } := by
    rw [hrun, resetRun_fresh]
    rw [loadCheckpoint_some cfg
      (freshState ((files.foldl (seqStep cfg pricing) (freshState none)).checkpointStore))
      (files.foldl (seqStep cfg pricing) (freshState none)).processedFiles hres hstore]
  rw [h2]
  obtain ⟨hs1, hs2, hs3⟩ := foldl_seqStep_all_skip cfg pricing files
    { freshState ((files.foldl (seqStep cfg pricing) (freshState none)).checkpointStore)
      with processedFiles :=
        (files.foldl (seqStep cfg pricing) (freshState none)).processedFiles }
    (fun fe hfe => hmemall fe hfe)
  rw [hs1, hs2, hs3]
  exact ⟨by simp [freshState], rfl, rfl⟩

/-- C5 witness: a concrete fully successful two-file first run makes the
second resume run skip both files. -/
theorem claim_C5_resume_skips_all_after_fully_successful_run_witness :
    ((⟨true, true, true⟩ : Config).enableCheckpointing = true ∧
     (⟨true, true, true⟩ : Config).resumeFromCheckpoint = true ∧
     ([(['a'], FileEvent.resp ⟨[], none, false⟩), (['b'], FileEvent.resp ⟨[], none, false⟩)] ≠
        ([] : List (PathStr × FileEvent))) ∧
     (∀ fe ∈ [(['a'], FileEvent.resp ⟨[], none, false⟩),
              (['b'], FileEvent.resp ⟨[], none, false⟩)], isSuccessEvent fe.2 = true)) ∧
    ((processDirectorySeq ⟨true, true, true⟩ ⟨1, 1, 1⟩
        [(['a'], FileEvent.resp ⟨[], none, false⟩), (['b'], FileEvent.resp ⟨[], none, false⟩)]
        (freshState
          ((processDirectorySeq ⟨true, true, true⟩ ⟨1, 1, 1⟩
            [(['a'], FileEvent.resp ⟨[], none, false⟩),
             (['b'], FileEvent.resp ⟨[], none, false⟩)]
            (freshState none)).checkpointStore))).statusSkipped = [['a'], ['b']] ∧
     (processDirectorySeq ⟨true, true, true⟩ ⟨1, 1, 1⟩
        [(['a'], FileEvent.resp ⟨[], none, false⟩), (['b'], FileEvent.resp ⟨[], none, false⟩)]
        (freshState
          ((processDirectorySeq ⟨true, true, true⟩ ⟨1, 1, 1⟩
            [(['a'], FileEvent.resp ⟨[], none, false⟩),
             (['b'], FileEvent.resp ⟨[], none, false⟩)]
            (freshState none)).checkpointStore))).statusSuccessful = [] ∧
     (processDirectorySeq ⟨true, true, true⟩ ⟨1, 1, 1⟩
        [(['a'], FileEvent.resp ⟨[], none, false⟩), (['b'], FileEvent.resp ⟨[], none, false⟩)]
        (freshState
          ((processDirectorySeq ⟨true, true, true⟩ ⟨1, 1, 1⟩
            [(['a'], FileEvent.resp ⟨[], none, false⟩),
             (['b'], FileEvent.resp ⟨[], none, false⟩)]
            (freshState none)).checkpointStore))).statusFailed = []) :=
  ⟨⟨rfl, rfl, by decide, by decide⟩,
    claim_C5_resume_skips_all_after_fully_successful_run ⟨true, true, true⟩ ⟨1, 1, 1⟩
      [(['a'], FileEvent.resp ⟨[], none, false⟩), (['b'], FileEvent.resp ⟨[], none, false⟩)]
      rfl rfl (by decide) (by decide)⟩

/-- C6: on a fresh run without resume, each file's final status is determined
by its own event alone, in both modes: a file whose stage errs (read raises,
empty read, bad kind, Recognizer error, validation failure) lands in the
failed list, a clean file lands in the successful list, and other files are
unaffected — no per-file error aborts the run. -/
theorem claim_C6_per_file_errors_isolated (cfg : Config) (pricing : Pricing)
    (files : List (PathStr × FileEvent)) (store : Option (Finset PathStr))
    (hres : cfg.resumeFromCheckpoint = false) (hnd : (files.map Prod.fst).Nodup) :
    ∀ fe ∈ files,
      ((fe.1 ∈ (processDirectorySeq cfg pricing files (freshState store)).statusFailed ↔
          isSuccessEvent fe.2 = false) ∧
       (fe.1 ∈ (processDirectorySeq cfg pricing files (freshState store)).statusSuccessful ↔
          isSuccessEvent fe.2 = true)) ∧
      ((fe.1 ∈ (processDirectoryPar cfg pricing files (freshState store)).statusFailed ↔
          isSuccessEvent fe.2 = false) ∧
       (fe.1 ∈ (processDirectoryPar cfg pricing files (freshState store)).statusSuccessful ↔
          isSuccessEvent fe.2 = true)) := by
  intro fe hfe
  have hne : files ≠ [] := List.ne_nil_of_mem hfe
  have hrun : processDirectorySeq cfg pricing files (freshState store) =
      files.foldl (seqStep cfg pricing) (freshState store) := by
    unfold processDirectorySeq
    rw [if_neg hne, resetRun_fresh, loadCheckpoint_not_resume cfg _ hres]
  have hrunP : processDirectoryPar cfg pricing files (freshState store) =
      files.foldl (parCollect cfg pricing) (freshState store) := by
    unfold processDirectoryPar
    rw [if_neg hne, resetRun_fresh, loadCheckpoint_not_resume cfg _ hres]
    rw [parSkipPhase_def, skipFold_id (freshState store).processedFiles files (freshState store)
      (fun fe2 _ => Finset.not_mem_empty fe2.1)]
    rw [show files.filter (fun fe => decide (fe.1 ∉ (freshState store).processedFiles)) = files
      from List.filter_eq_self.mpr (fun fe2 _ => by simp [freshState])]
  obtain ⟨hc1, hc2, hc3, _⟩ := foldl_seqStep_char cfg pricing files (freshState store)
    (fun fe2 _ => Finset.not_mem_empty fe2.1) hnd
  obtain ⟨hp1, hp2, hp3⟩ := foldl_parCollect_char cfg pricing files (freshState store)
  constructor
  · constructor
    · rw [hrun, hc2]
      show fe.1 ∈ [] ++ _ ↔ _
      rw [List.nil_append, mem_map_fst_filter _ files hnd fe hfe, Bool.not_eq_true']
    · rw [hrun, hc1]
      show fe.1 ∈ [] ++ _ ↔ _
      rw [List.nil_append, mem_map_fst_filter _ files hnd fe hfe]
  · constructor
    · rw [hrunP, hp2]
      show fe.1 ∈ [] ++ _ ↔ _
      rw [List.nil_append, mem_map_fst_filter _ files hnd fe hfe, Bool.not_eq_true']
    · rw [hrunP, hp1]
      show fe.1 ∈ [] ++ _ ↔ _
      rw [List.nil_append, mem_map_fst_filter _ files hnd fe hfe]

/-- C6 witness: a three-file catalog whose middle file errs — the error file
is failed, its neighbours succeed, in both modes. -/
theorem claim_C6_per_file_errors_isolated_witness :
    ((⟨true, false, false⟩ : Config).resumeFromCheckpoint = false ∧
     (([(['a'], FileEvent.resp ⟨[], none, false⟩), (['b'], FileEvent.readRaises),
        (['c'], FileEvent.resp ⟨[], none, false⟩)].map Prod.fst).Nodup)) ∧
    (∀ fe ∈ [(['a'], FileEvent.resp ⟨[], none, false⟩), (['b'], FileEvent.readRaises),
             (['c'], FileEvent.resp ⟨[], none, false⟩)],
      ((fe.1 ∈ (processDirectorySeq ⟨true, false, false⟩ ⟨1, 1, 1⟩
          [(['a'], FileEvent.resp ⟨[], none, false⟩), (['b'], FileEvent.readRaises),
           (['c'], FileEvent.resp ⟨[], none, false⟩)] (freshState none)).statusFailed ↔
          isSuccessEvent fe.2 = false) ∧
       (fe.1 ∈ (processDirectorySeq ⟨true, false, false⟩ ⟨1, 1, 1⟩
          [(['a'], FileEvent.resp ⟨[], none, false⟩), (['b'], FileEvent.readRaises),
           (['c'], FileEvent.resp ⟨[], none, false⟩)] (freshState none)).statusSuccessful ↔
          isSuccessEvent fe.2 = true)) ∧
      ((fe.1 ∈ (processDirectoryPar ⟨true, false, false⟩ ⟨1, 1, 1⟩
          [(['a'], FileEvent.resp ⟨[], none, false⟩), (['b'], FileEvent.readRaises),
           (['c'], FileEvent.resp ⟨[], none, false⟩)] (freshState none)).statusFailed ↔
          isSuccessEvent fe.2 = false) ∧
       (fe.1 ∈ (processDirectoryPar ⟨true, false, false⟩ ⟨1, 1, 1⟩
          [(['a'], FileEvent.resp ⟨[], none, false⟩), (['b'], FileEvent.readRaises),
           (['c'], FileEvent.resp ⟨[], none, false⟩)] (freshState none)).statusSuccessful ↔
          isSuccessEvent fe.2 = true))) :=
  ⟨⟨rfl, by decide⟩,
    claim_C6_per_file_errors_isolated ⟨true, false, false⟩ ⟨1, 1, 1⟩
      [(['a'], FileEvent.resp ⟨[], none, false⟩), (['b'], FileEvent.readRaises),
       (['c'], FileEvent.resp ⟨[], none, false⟩)] none rfl (by decide)⟩

/-- The state reached by one invocation that successfully processed the
single file z, with resume enabled, checkpointing disabled, and an empty
checkpoint file already on disk: calculateCost off, enableCheckpointing off,
resumeFromCheckpoint on. -/
def c10PriorState : ExtractorState :=
  processDirectorySeq ⟨false, false, true⟩ ⟨0, 0, 0⟩
    [(['z'], FileEvent.resp ⟨[], none, false⟩)] (freshState (some ∅))

/-- C10 counterexample: the claim says every invocation leaves the
processed_files checkpoint set unchanged, so entries from earlier invocations
persist.  But with resume enabled, _load_checkpoint (line 158) replaces
processed_files with the checkpoint file's contents.  Here the first
invocation ends with z in processed_files, yet — checkpointing being
disabled, so the on-disk file stayed empty — the second invocation wipes the
set at its load step and re-dispatches z instead of skipping it: the skipped
list does not grow and the file is counted again. -/
theorem claim_C10_counterexample :
    c10PriorState.processedFiles = {['z']} ∧
    (loadCheckpoint ⟨false, false, true⟩ (resetRun c10PriorState)).processedFiles = ∅ ∧
    (processDirectorySeq ⟨false, false, true⟩ ⟨0, 0, 0⟩
        [(['z'], FileEvent.resp ⟨[], none, false⟩)] c10PriorState).statusSkipped =
      c10PriorState.statusSkipped ∧
    (processDirectorySeq ⟨false, false, true⟩ ⟨0, 0, 0⟩
        [(['z'], FileEvent.resp ⟨[], none, false⟩)] c10PriorState).runTotalFiles = 1 :=
  ⟨by decide, by decide, by decide, by decide⟩

/-- C10 (amended): process_directory recomputes run_metadata, the total cost
and the usage list from scratch — the run result does not depend on their
prior values — and the file_status lists only grow (prior entries stay as a
prefix) in every invocation; the processed-files set only grows, so its
entries persist, in the resume-off regime — with resume on, _load_checkpoint
replaces it from the checkpoint file (see the counterexample). -/
theorem claim_C10_reset_and_persistence (cfg : Config) (pricing : Pricing)
    (files : List (PathStr × FileEvent)) (st0 : ExtractorState)
    (hres : cfg.resumeFromCheckpoint = false)
    (c : ℚ) (ul : List Usage) (a b d : Nat) :
    processDirectorySeq cfg pricing files
        { st0 with
          totalCost := c
          usageMetadataList := ul
          runTotalFiles := a
          runSuccessfulFiles := b
          runFailedFiles := d } =
      processDirectorySeq cfg pricing files st0 ∧
    (∃ t1, (processDirectorySeq cfg pricing files st0).statusSuccessful =
        st0.statusSuccessful ++ t1) ∧
    (∃ t2, (processDirectorySeq cfg pricing files st0).statusFailed =
        st0.statusFailed ++ t2) ∧
    (∃ t3, (processDirectorySeq cfg pricing files st0).statusSkipped =
        st0.statusSkipped ++ t3) ∧
    st0.processedFiles ⊆ (processDirectorySeq cfg pricing files st0).processedFiles := by
  refine ⟨rfl, ?_⟩
  by_cases hne : files = []
  · subst hne
    exact ⟨⟨[], by simp [processDirectorySeq, resetRun]⟩,
      ⟨[], by simp [processDirectorySeq, resetRun]⟩,
      ⟨[], by simp [processDirectorySeq, resetRun]⟩, fun x hx => hx⟩
  · have hrun : processDirectorySeq cfg pricing files st0 =
        files.foldl (seqStep cfg pricing) (resetRun st0) := by
      unfold processDirectorySeq
      rw [if_neg hne, loadCheckpoint_not_resume cfg _ hres]
    rw [hrun]
    obtain ⟨h1, h2, h3⟩ := foldl_seqStep_appends cfg pricing files (resetRun st0)
    exact ⟨h1, h2, h3, foldl_seqStep_processed_mono cfg pricing files (resetRun st0)⟩

/-- C10 witness: a concrete prior state whose failed entry survives the next
run while the accumulators are recomputed. -/
theorem claim_C10_reset_and_persistence_witness :
    ((⟨true, false, false⟩ : Config).resumeFromCheckpoint = false) ∧
    (processDirectorySeq ⟨true, false, false⟩ ⟨1, 1, 1⟩
        [(['a'], FileEvent.resp ⟨[], none, false⟩)]
        { freshState none with
          statusFailed := [['z']]
          totalCost := 7
          usageMetadataList := []
          runTotalFiles := 4
          runSuccessfulFiles := 5
          runFailedFiles := 6 } =
      processDirectorySeq ⟨true, false, false⟩ ⟨1, 1, 1⟩
        [(['a'], FileEvent.resp ⟨[], none, false⟩)]
        { freshState none with statusFailed := [['z']] } ∧
     (∃ t1, (processDirectorySeq ⟨true, false, false⟩ ⟨1, 1, 1⟩
        [(['a'], FileEvent.resp ⟨[], none, false⟩)]
        { freshState none with statusFailed := [['z']] }).statusSuccessful =
          ({ freshState none with statusFailed := [['z']] } : ExtractorState).statusSuccessful
            ++ t1) ∧
     (∃ t2, (processDirectorySeq ⟨true, false, false⟩ ⟨1, 1, 1⟩
        [(['a'], FileEvent.resp ⟨[], none, false⟩)]
        { freshState none with statusFailed := [['z']] }).statusFailed =
          ({ freshState none with statusFailed := [['z']] } : ExtractorState).statusFailed
            ++ t2) ∧
     (∃ t3, (processDirectorySeq ⟨true, false, false⟩ ⟨1, 1, 1⟩
        [(['a'], FileEvent.resp ⟨[], none, false⟩)]
        { freshState none with statusFailed := [['z']] }).statusSkipped =
          ({ freshState none with statusFailed := [['z']] } : ExtractorState).statusSkipped
            ++ t3) ∧
     ({ freshState none with statusFailed := [['z']] } : ExtractorState).processedFiles ⊆
       (processDirectorySeq ⟨true, false, false⟩ ⟨1, 1, 1⟩
        [(['a'], FileEvent.resp ⟨[], none, false⟩)]
        { freshState none with statusFailed := [['z']] }).processedFiles) :=
  ⟨rfl,
    claim_C10_reset_and_persistence ⟨true, false, false⟩ ⟨1, 1, 1⟩
      [(['a'], FileEvent.resp ⟨[], none, false⟩)]
      { freshState none with statusFailed := [['z']] } rfl 7 [] 4 5 6⟩

end GeminiOcr
